import Mathlib

/-!
# CasioEmu: the execution engine of `Emulator.cpp`

A shallow embedding of `emulator/src/Emulator.cpp`: the cycle clock
(`Emulator::Cycles`), the timer callback, the interactive console
(`Emulator::ExecuteCommand`), the model loader and the `ModelInfo` conversions,
followed by the properties proved (or refuted) about them.

Conventions.
* `Uint64` values are naturals below `2 ^ 64`; arithmetic on them is reduced
  modulo `2 ^ 64` explicitly.
* `double` values are the rationals representable in IEEE 754 binary64; every
  conversion and arithmetic operation is the exact rational operation followed
  by `roundDouble` (round to nearest, ties to even), each operation rounded on
  its own, as on the 64-bit platforms the emulator is built for.
* `std::string` values are lists of characters.
* A call of `PANIC` ends the process; functions that can reach it return
  `Except`.
* The results of external calls (`SDL_GetPerformanceCounter`, the Lua library)
  are inputs of the embedded functions.
-/

namespace casioemu

/-! ## Unsigned 64-bit arithmetic -/

/-- Number of `Uint64` values. -/
def UINT64_RANGE : Nat := 2 ^ 64

/-- Subtraction of two `Uint64` values: `a - b` modulo `2 ^ 64`. -/
def sub64 (a b : Nat) : Nat := (a % UINT64_RANGE + UINT64_RANGE - b % UINT64_RANGE) % UINT64_RANGE

/-! ## IEEE 754 binary64 arithmetic -/

/-- Nearest integer to `x`, a tie going to the even neighbour. -/
def roundHalfEven (x : ℚ) : ℤ :=
  if x - ⌊x⌋ < 1 / 2 then ⌊x⌋
  else if 1 / 2 < x - ⌊x⌋ then ⌊x⌋ + 1
  else if ⌊x⌋ % 2 = 0 then ⌊x⌋ else ⌊x⌋ + 1

/-- Exponent of the binade of a non-negative `q`: `⌊log₂ q⌋`, and the least
normal exponent `-1022` for the subnormal range (and for zero). -/
def binadeExp (q : ℚ) : ℤ := max (Int.log 2 q) (-1022)

/-- Rounding of a non-negative rational to 53 significant bits: the spacing of
binary64 values in the binade of exponent `e` is `2 ^ (e - 52)`. -/
def roundMag (q : ℚ) : ℚ :=
  (roundHalfEven (q / 2 ^ (binadeExp q - 52)) : ℚ) * 2 ^ (binadeExp q - 52)

/-- The binary64 value nearest to `q` (round to nearest, ties to even), for
`|q| < 2 ^ 1024`; overflow to infinity is not represented, and
`dueDouble_le` below shows that `GetDelta` stays far from it. -/
def roundDouble (q : ℚ) : ℚ := if q < 0 then -roundMag (-q) else roundMag q

/-- Conversion `(double)n` of a `Uint64`, also the implicit conversion of a
`Uint64` operand of `/` or `*` whose other operand is a `double`. -/
def u64ToDouble (n : Nat) : ℚ := roundDouble (n : ℚ)

/-- Division of two `double`s with a nonzero divisor. -/
def ddiv (a b : ℚ) : ℚ := roundDouble (a / b)

/-- Product of two `double`s. -/
def dmul (a b : ℚ) : ℚ := roundDouble (a * b)

/-- Conversion of a `double` to `Uint64`: the value is truncated toward zero;
the behaviour is undefined (`none`) when the truncated value is not a
`Uint64`. -/
def doubleToU64 (x : ℚ) : Option Nat :=
  if -1 < x ∧ x < 2 ^ 64 then some ⌊x⌋₊ else none

/-! ## `Emulator::Cycles` -/

/-- The fields of `Emulator::Cycles`, all `Uint64`. -/
structure Cycles where
  ticks_at_reset : Nat
  cycles_emulated : Nat
  cycles_per_second : Nat
  performance_frequency : Nat
deriving DecidableEq

/-- `Cycles::Cycles(_cycles_per_second)`: records the rate and the value of
`SDL_GetPerformanceFrequency()`; the other two fields are left uninitialised
and hold whatever `garbage₁`, `garbage₂` the memory contains. -/
def Cycles.construct (_cycles_per_second frequency garbage₁ garbage₂ : Nat) : Cycles :=
  { ticks_at_reset := garbage₁
    cycles_emulated := garbage₂
    cycles_per_second := _cycles_per_second
    performance_frequency := frequency }

/-- `Cycles::Reset()`, `counter` being the value of
`SDL_GetPerformanceCounter()`. -/
def Cycles.Reset (c : Cycles) (counter : Nat) : Cycles :=
  { c with ticks_at_reset := counter, cycles_emulated := 0 }

/-- The `double` expression
`(double)(ticks_now - ticks_at_reset) / performance_frequency * cycles_per_second`
as a function of the elapsed ticks, for a nonzero frequency. -/
def dueDouble (elapsed frequency rate : Nat) : ℚ :=
  dmul (ddiv (u64ToDouble elapsed) (u64ToDouble frequency)) (u64ToDouble rate)

/-- The value assigned to `cycles_to_have_been_emulated_by_now`. With a zero
frequency the quotient is an infinity or a NaN and so is the product, which no
`Uint64` represents. -/
def dueCount (elapsed frequency rate : Nat) : Option Nat :=
  if frequency = 0 then none else doubleToU64 (dueDouble elapsed frequency rate)

/-- `Cycles::GetDelta()`, `counter` being the value of
`SDL_GetPerformanceCounter()`: the returned `diff` and the updated clock, or
`none` when the conversion to `Uint64` is undefined. -/
def Cycles.GetDelta (c : Cycles) (counter : Nat) : Option (Nat × Cycles) :=
  let ticks_now := counter
  match dueCount (sub64 ticks_now c.ticks_at_reset) c.performance_frequency c.cycles_per_second with
  | none => none
  | some cycles_to_have_been_emulated_by_now =>
    let diff := sub64 cycles_to_have_been_emulated_by_now c.cycles_emulated
    some (diff, { c with cycles_emulated := cycles_to_have_been_emulated_by_now })

/-- A sequence of `GetDelta` calls at the given counter readings: the deltas
returned, in call order, and the final clock. -/
def Cycles.run (c : Cycles) : List Nat → Option (List Nat × Cycles)
  | [] => some ([], c)
  | t :: ts =>
    match c.GetDelta t with
    | none => none
    | some (d, c') =>
      match Cycles.run c' ts with
      | none => none
      | some (ds, c'') => some (d :: ds, c'')

/-- One operation on the clock together with the counter reading it sees. -/
inductive ClockOp where
  | reset (counter : Nat)
  | getDelta (counter : Nat)
deriving DecidableEq

/-- Any interleaving of `Reset` and `GetDelta` calls: the deltas returned by
the `GetDelta` calls and the final clock. -/
def Cycles.exec (c : Cycles) : List ClockOp → Option (List Nat × Cycles)
  | [] => some ([], c)
  | ClockOp.reset t :: ops => Cycles.exec (c.Reset t) ops
  | ClockOp.getDelta t :: ops =>
    match c.GetDelta t with
    | none => none
    | some (d, c') =>
      match Cycles.exec c' ops with
      | none => none
      | some (ds, c'') => some (d :: ds, c'')

/-- The exact rational count the specification describes:
`floor(elapsed * cycles_per_second / timer_frequency)`. -/
def dueExact (elapsed frequency rate : Nat) : Nat := elapsed * rate / frequency


/-- The reading at the last call of a call sequence that starts after a
`Reset` at reading `t₀`. -/
def lastReading (t₀ : Nat) : List Nat → Nat
  | [] => t₀
  | t :: ts => lastReading t ts

/-! ## The Lua library

The Lua C API is outside the repository. `LuaLib` holds what the library would
answer: whether a source text compiles and what a compiled chunk does when it
is called. The API functions used by `Emulator.cpp` are modelled on the Lua
reference manual, on a state made of the value stack and the registry. -/

/-- Lua values, as far as `Emulator.cpp` can tell them apart. Numbers are the
integers; tables and threads are named by an address, functions by the chunk
they were compiled from. -/
inductive LuaValue where
  | nil
  | boolean (b : Bool)
  | number (n : Int)
  | string (s : List Char)
  | table (address : Nat)
  | function (chunk : Nat)
  | thread (address : Nat)
deriving DecidableEq

/-- What calling a compiled chunk does: it returns a list of values or raises
an error object; either way it may change the Lua world. -/
inductive CallOutcome (σ : Type) where
  | returned (values : List LuaValue) (world : σ)
  | raised (error : LuaValue) (world : σ)

/-- The answers of the Lua library: `loadfile path` and `loadstring source`
give the compiled chunk or the diagnostic of the failure, `call` runs a chunk,
`getfield` indexes a value (`none` when indexing raises an error). -/
structure LuaLib (σ : Type) where
  loadfile : List Char → Except (List Char) Nat
  loadstring : List Char → Except (List Char) Nat
  call : Nat → σ → CallOutcome σ
  getfield : σ → LuaValue → List Char → Option LuaValue

/-- A `lua_State`: the world the scripts act on, the value stack (top first),
the array part of the registry (reference `n` is entry `n`, counted from 1),
and the chunks that `lua_pcall` has called so far, oldest first. -/
structure LuaState (σ : Type) where
  world : σ
  stack : List LuaValue
  registry : List LuaValue
  calls : List Nat

def LUA_OK : Nat := 0
def LUA_ERRRUN : Nat := 2
def LUA_ERRSYNTAX : Nat := 3
def LUA_REFNIL : Int := -1

/-- `luaL_loadstring` and `luaL_loadfile` push the compiled chunk as a function
and return `LUA_OK`, or push the diagnostic and return an error status. -/
def pushLoadResult {σ : Type} (L : LuaState σ) : Except (List Char) Nat → Nat × LuaState σ
  | Except.ok chunk => (LUA_OK, { L with stack := LuaValue.function chunk :: L.stack })
  | Except.error message => (LUA_ERRSYNTAX, { L with stack := LuaValue.string message :: L.stack })

def luaL_loadstring {σ : Type} (lib : LuaLib σ) (L : LuaState σ) (s : List Char) : Nat × LuaState σ :=
  pushLoadResult L (lib.loadstring s)

def luaL_loadfile {σ : Type} (lib : LuaLib σ) (L : LuaState σ) (filename : List Char) :
    Nat × LuaState σ :=
  pushLoadResult L (lib.loadfile filename)

/-- Adjustment of a result list to `nresults` values: surplus values are
dropped, missing ones are `nil`. -/
def adjustResults (nresults : Nat) (values : List LuaValue) : List LuaValue :=
  (values ++ List.replicate nresults LuaValue.nil).take nresults

/-- `lua_pcall(L, 0, nresults, 0)`: pops the function on top of the stack and
calls it in protected mode; pushes its results adjusted to `nresults` (the last
result on top) and returns `LUA_OK`, or pushes the error object and returns
`LUA_ERRRUN`. A value that is not a function cannot be called, which is an
error as well. -/
def lua_pcall {σ : Type} (lib : LuaLib σ) (L : LuaState σ) (nresults : Nat) : Nat × LuaState σ :=
  match L.stack with
  | LuaValue.function chunk :: rest =>
    match lib.call chunk L.world with
    | CallOutcome.returned values world =>
      (LUA_OK, { L with world := world
                        stack := (adjustResults nresults values).reverse ++ rest
                        calls := L.calls ++ [chunk] })
    | CallOutcome.raised error world =>
      (LUA_ERRRUN, { L with world := world, stack := error :: rest, calls := L.calls ++ [chunk] })
  | _ :: rest =>
    (LUA_ERRRUN, { L with stack := LuaValue.string "attempt to call a non-function value".toList :: rest })
  | [] => (LUA_ERRRUN, L)

/-- `lua_tostring` of a value: strings and numbers have a string form, other
values give `NULL` (`none`). -/
def LuaValue.tostring : LuaValue → Option (List Char)
  | LuaValue.string s => some s
  | LuaValue.number n => some (toString n).toList
  | _ => none

/-- `lua_tostring(L, -1)`. -/
def lua_tostring {σ : Type} (L : LuaState σ) : Option (List Char) :=
  match L.stack with
  | v :: _ => v.tostring
  | [] => none

/-- `lua_pop(L, n)`. -/
def lua_pop {σ : Type} (L : LuaState σ) (n : Nat) : LuaState σ :=
  { L with stack := L.stack.drop n }

/-- `luaL_ref(L, LUA_REGISTRYINDEX)`: pops the value on top of the stack; for
`nil` it returns `LUA_REFNIL` and stores nothing, otherwise it stores the value
in the registry under a fresh reference, the length of the array part plus
one, and returns the reference. No reference is ever released before the
destructor, so the list of free references is empty. -/
def luaL_ref {σ : Type} (L : LuaState σ) : Int × LuaState σ :=
  match L.stack with
  | [] => (LUA_REFNIL, L)
  | LuaValue.nil :: rest => (LUA_REFNIL, { L with stack := rest })
  | v :: rest => ((L.registry.length + 1 : Nat), { L with stack := rest, registry := L.registry ++ [v] })

/-- `lua_rawgeti(L, LUA_REGISTRYINDEX, ref)`, as a value: the registry entry of
the reference, `nil` when there is none. -/
def registryEntry {σ : Type} (L : LuaState σ) (ref : Int) : LuaValue :=
  if 1 ≤ ref then (L.registry.get? (ref.toNat - 1)).getD LuaValue.nil else LuaValue.nil

/-! ## C strings and streams -/

/-- `std::string::c_str()` read as a C string: the characters before the first
NUL. -/
def c_str (s : List Char) : List Char := s.takeWhile (fun c => c ≠ '\x00')

/-- `strstr(haystack, needle) != NULL` for a non-null `haystack`; a null
`haystack` does not occur where the emulator calls it. -/
def strstr (haystack : Option (List Char)) (needle : List Char) : Bool :=
  match haystack with
  | some h => decide (needle <:+: h)
  | none => false

/-- Text printed for a `%s` argument, `(null)` for a null pointer. -/
def showCString : Option (List Char) → List Char
  | some s => s
  | none => "(null)".toList

/-- `std::isspace` in the C locale. -/
def isspace (c : Char) : Bool :=
  c = ' ' || c = '\t' || c = '\n' || c = '\x0b' || c = '\x0c' || c = '\r'

/-- Value of a digit sequence read left to right, starting from `acc`. -/
def digitsValue (acc : Nat) : List Char → Nat
  | [] => acc
  | c :: cs => digitsValue (10 * acc + (c.toNat - '0'.toNat)) cs

def INT_MIN : Int := -2147483648
def INT_MAX : Int := 2147483647

/-- `ss << s; ss >> result` for an `int result` on a fresh `std::stringstream`
in its default state (`skipws`, `dec`, C locale): leading white space is
skipped, an optional sign and the longest run of decimal digits are read and
converted, and whatever follows is left in the stream. The stream fails
(`none`) when no digit was read or the value does not fit an `int`. -/
def extractInt (s : List Char) : Option Int :=
  let body := s.dropWhile isspace
  let negative := body.head? = some '-'
  let unsigned := if body.head? = some '-' ∨ body.head? = some '+' then body.tail else body
  let digits := unsigned.takeWhile Char.isDigit
  if digits = [] then none
  else
    let value : Int := if negative then -(digitsValue 0 digits : Int) else (digitsValue 0 digits : Int)
    if INT_MIN ≤ value ∧ value ≤ INT_MAX then some value else none

/-! ## `Emulator` -/

/-- Modelled from the spec: the `PANIC` macro of `Logger.hpp`, which is not
part of the sources at hand. A failure it reports is fatal: the diagnostic is
emitted and the process terminates. The constructors are the `PANIC` sites of
the functions embedded here, with the text they print; `luaError` is an error
raised by Lua outside any protected call, which ends the process as well. -/
inductive Panic where
  | loadModelDefition (message : List Char)
  | keyNotDefined (key : List Char)
  | notConvertible (key : List Char)
  | luaError
deriving DecidableEq

/-- The members of `Emulator` used by the functions embedded here; `χ` is the
state of the chipset, `σ` the world of the Lua scripts, and `log` collects the
lines written through `logger::Info`. -/
structure Emulator (χ σ : Type) where
  running : Bool
  paused : Bool
  model_path : List Char
  cycles : Cycles
  chipset : χ
  lua_state : LuaState σ
  lua_model_ref : Int
  command_buffer : List Char
  log : List (List Char)

/-- `Emulator::LoadModelDefition`. -/
def Emulator.LoadModelDefition {χ σ : Type} (lib : LuaLib σ) (e : Emulator χ σ) :
    Except Panic (Emulator χ σ) :=
  let loaded := luaL_loadfile lib e.lua_state (e.model_path ++ "/model.lua".toList)
  if loaded.1 ≠ LUA_OK then
    Except.error (Panic.loadModelDefition
      ("LoadModelDefition failed: ".toList ++ showCString (lua_tostring loaded.2) ++ "\n".toList))
  else
    let called := lua_pcall lib loaded.2 1
    if called.1 ≠ LUA_OK then
      Except.error (Panic.loadModelDefition
        ("LoadModelDefition failed: ".toList ++ showCString (lua_tostring called.2) ++ "\n".toList))
    else
      let ref := luaL_ref called.2
      Except.ok { e with lua_state := ref.2, lua_model_ref := ref.1 }

/-- `Emulator::ModelInfo::operator std::string` for the accessor of `key`: the
model value and its field are pushed, the string form of the field is taken,
and both are popped again, so the Lua state is left as it was. -/
def ModelInfo.operator_string {χ σ : Type} (lib : LuaLib σ) (emulator : Emulator χ σ)
    (key : List Char) : Except Panic (List Char) :=
  match lib.getfield emulator.lua_state.world
      (registryEntry emulator.lua_state emulator.lua_model_ref) (c_str key) with
  | none => Except.error Panic.luaError
  | some field =>
    match field.tostring with
    | none => Except.error (Panic.keyNotDefined (c_str key))
    | some value => Except.ok value

/-- `Emulator::ModelInfo::operator int`. -/
def ModelInfo.operator_int {χ σ : Type} (lib : LuaLib σ) (emulator : Emulator χ σ)
    (key : List Char) : Except Panic Int :=
  match ModelInfo.operator_string lib emulator key with
  | Except.error p => Except.error p
  | Except.ok text =>
    match extractInt text with
    | none => Except.error (Panic.notConvertible (c_str key))
    | some result => Except.ok result

/-- The loop `for (Uint64 ix = 0; ix != cycles_to_emulate; ++ix) chipset.Tick();`
from the counter value `ix` on, `Tick` being the chipset step. The loop has no
bound of its own, so the embedding takes fuel: `none` means that the fuel ran
out before the loop ended. -/
def tickLoop {χ : Type} (Tick : χ → χ) (cycles_to_emulate : Nat) : Nat → Nat → χ → Option χ
  | 0, _, _ => none
  | fuel + 1, ix, chipset =>
    if ix ≠ cycles_to_emulate then
      tickLoop Tick cycles_to_emulate fuel ((ix + 1) % UINT64_RANGE) (Tick chipset)
    else some chipset

/-- `Emulator::TimerCallback`, `counter` being the performance counter read by
`GetDelta`. The lock guard only serialises the callback against the other entry
points and is not represented. `none`: undefined conversion in `GetDelta`, or
fuel exhausted. -/
def Emulator.TimerCallback {χ σ : Type} (Tick : χ → χ) (e : Emulator χ σ) (counter fuel : Nat) :
    Option (Emulator χ σ) :=
  match e.cycles.GetDelta counter with
  | none => none
  | some (cycles_to_emulate, cycles) =>
    match tickLoop Tick cycles_to_emulate fuel 0 e.chipset with
    | none => none
    | some chipset => some { e with cycles := cycles, chipset := chipset }

/-- `Emulator::ExecuteCommand`: the returned flag and the emulator afterwards. -/
def Emulator.ExecuteCommand {χ σ : Type} (lib : LuaLib σ) (e : Emulator χ σ) (command : List Char) :
    Bool × Emulator χ σ :=
  let command_buffer := e.command_buffer ++ command
  let loaded := luaL_loadstring lib e.lua_state (c_str command_buffer)
  if loaded.1 ≠ LUA_OK then
    let cleared : Bool := !strstr (lua_tostring loaded.2) "<eof>".toList
    let kept := if cleared then [] else command_buffer
    let log := if cleared then
        e.log ++ ["[Console input] ".toList ++ showCString (lua_tostring loaded.2) ++ "\n".toList]
      else e.log
    (kept.isEmpty, { e with command_buffer := kept, log := log, lua_state := lua_pop loaded.2 1 })
  else
    let called := lua_pcall lib loaded.2 0
    if called.1 ≠ LUA_OK then
      (true, { e with command_buffer := []
                      log := e.log ++ ["[Console input] ".toList ++ showCString (lua_tostring called.2) ++ "\n".toList]
                      lua_state := lua_pop called.2 1 })
    else
      (true, { e with command_buffer := [], lua_state := called.2 })

/-- The diagnostic of a compile failure names the end of input as the place of
the error: Lua ends such a message with the token name `<eof>`. -/
def endsAtEof (message : List Char) : Prop := "<eof>".toList <:+ message

instance (message : List Char) : Decidable (endsAtEof message) := by
  unfold endsAtEof; infer_instance


/-! ## Concrete environments -/

/-- An emulator with a new Lua state (empty stack, the registry holding the
main thread and the table of globals, nothing called yet), an empty command
buffer and an empty log. -/
def Emulator.fresh {χ σ : Type} (chipset : χ) (world : σ) (cycles : Cycles) : Emulator χ σ :=
  { running := true
    paused := false
    model_path := "models/fx570".toList
    cycles := cycles
    chipset := chipset
    lua_state := { world := world, stack := []
                   registry := [LuaValue.thread 0, LuaValue.table 0], calls := [] }
    lua_model_ref := LUA_REFNIL
    command_buffer := []
    log := [] }

/-- A Lua library that compiles every file to chunk 0, whose chunks all do
`script`, that answers `compile` on source strings, and in which indexing any
value by `key` gives `fields key`. -/
def LuaLib.fixed (compile : List Char → Except (List Char) Nat) (script : CallOutcome Unit)
    (fields : List Char → LuaValue) : LuaLib Unit :=
  { loadfile := fun _ => Except.ok 0
    loadstring := compile
    call := fun _ _ => script
    getfield := fun _ _ key => some (fields key) }

/-- The diagnostic of Lua 5.3 for the source `)<eof>`: the message starts with
the chunk name, which for `luaL_loadstring` quotes the source itself, and ends
with the offending token, here the closing parenthesis. -/
def unexpectedSymbolMessage : List Char :=
  "[string \")<eof>\"]:1: unexpected symbol near ')'".toList

/-- Lua on the console input `)<eof>`: not a statement, for a reason that has
nothing to do with the end of the input. Every other source compiles to
chunk 0 here. -/
def compileUnexpectedSymbol (source : List Char) : Except (List Char) Nat :=
  if source = ")<eof>".toList then Except.error unexpectedSymbolMessage else Except.ok 0

/-- Lua on the two buffers of a statement typed as `if true then ` and
`print(1) end`: the first is cut short at the end of input, the whole compiles
to chunk 7. -/
def compileTwoFragments (source : List Char) : Except (List Char) Nat :=
  if source = "if true then ".toList then
    Except.error "[string \"if true then \"]:1: 'end' expected near <eof>".toList
  else if source = "if true then print(1) end".toList then Except.ok 7
  else Except.ok 0

/-- The emulator used in the examples: chipset state 0 (a tick counter), a
counter of 1 kHz, 1000 cycles per second, clock reset at reading 0. -/
def sampleEmulator : Emulator ℕ Unit :=
  Emulator.fresh 0 () ((Cycles.construct 1000 1000 0 0).Reset 0)

/-- A model whose field `x` is the string `4a` and whose field `y` is the
string `abc`; every other field is absent. -/
def sampleFields (key : List Char) : LuaValue :=
  if key = "x".toList then LuaValue.string "4a".toList
  else if key = "y".toList then LuaValue.string "abc".toList
  else LuaValue.nil

/-- The string begins, after optional white space and one optional sign, with
a decimal digit. -/
def startsWithInteger (s : List Char) : Bool :=
  let body := s.dropWhile isspace
  let unsigned := if body.head? = some '-' ∨ body.head? = some '+' then body.tail else body
  match unsigned with
  | c :: _ => c.isDigit
  | [] => false

/-- The diagnostic of Lua 5.3 for the source `if true thenprint(1) end`, in
which `thenprint` is a single name. -/
def thenExpectedMessage : List Char :=
  "[string \"if true thenprint(1) end\"]:1: 'then' expected near 'thenprint'".toList

/-- Lua on the two buffers of the fragments `if true then` and `print(1) end`:
the first is cut short at the end of input; the second buffer is
`if true thenprint(1) end`, which is not a statement. Every other source
compiles to chunk 0 here. -/
def compileUnseparated (source : List Char) : Except (List Char) Nat :=
  if source = "if true then".toList then
    Except.error "[string \"if true then\"]:1: 'end' expected near <eof>".toList
  else if source = "if true thenprint(1) end".toList then Except.error thenExpectedMessage
  else Except.ok 0

/-! # Properties -/

/-! ## Rounding lemmas -/

theorem roundHalfEven_bounds (x : ℚ) : ⌊x⌋ ≤ roundHalfEven x ∧ roundHalfEven x ≤ ⌊x⌋ + 1 := by
  unfold roundHalfEven
  split_ifs <;> constructor <;> omega

theorem roundHalfEven_intCast (n : ℤ) : roundHalfEven (n : ℚ) = n := by
  unfold roundHalfEven
  simp

theorem roundHalfEven_mono {x y : ℚ} (h : x ≤ y) : roundHalfEven x ≤ roundHalfEven y := by
  have hf : ⌊x⌋ ≤ ⌊y⌋ := Int.floor_mono h
  rcases lt_or_eq_of_le hf with hlt | heq
  · have h1 := (roundHalfEven_bounds x).2
    have h2 := (roundHalfEven_bounds y).1
    omega
  · unfold roundHalfEven
    rw [← heq]
    have hx : x - (⌊x⌋ : ℚ) ≤ y - (⌊x⌋ : ℚ) := by linarith
    split_ifs <;> first | omega | (exfalso; linarith)

theorem roundHalfEven_le_of_le {x : ℚ} {n : ℤ} (h : x ≤ n) : roundHalfEven x ≤ n := by
  have := roundHalfEven_mono h
  rwa [roundHalfEven_intCast] at this

theorem le_roundHalfEven_of_le {x : ℚ} {n : ℤ} (h : (n : ℚ) ≤ x) : n ≤ roundHalfEven x := by
  have := roundHalfEven_mono h
  rwa [roundHalfEven_intCast] at this

theorem roundHalfEven_eq_of_near {x : ℚ} {m : ℤ} (h1 : (m : ℚ) - 1 / 2 < x) (h2 : x < m + 1 / 2) :
    roundHalfEven x = m := by
  unfold roundHalfEven
  by_cases hm : (m : ℚ) ≤ x
  · have hfl : ⌊x⌋ = m := by
      rw [Int.floor_eq_iff]; constructor <;> linarith
    rw [hfl]
    rw [if_pos (by linarith)]
  · have hfl : ⌊x⌋ = m - 1 := by
      rw [Int.floor_eq_iff]; push_cast; constructor <;> linarith
    rw [hfl]
    push_cast
    rw [if_neg (by linarith), if_pos (by linarith)]
    ring

theorem spacing_pos (e : ℤ) : (0 : ℚ) < 2 ^ e := zpow_pos (by norm_num) e

theorem binadeExp_mono {p q : ℚ} (hp : 0 < p) (h : p ≤ q) : binadeExp p ≤ binadeExp q := by
  unfold binadeExp
  exact max_le_max (Int.log_mono_right hp h) le_rfl

theorem roundMag_nonneg {q : ℚ} (hq : 0 ≤ q) : 0 ≤ roundMag q := by
  unfold roundMag
  apply mul_nonneg _ (spacing_pos _).le
  have : (0 : ℤ) ≤ roundHalfEven (q / 2 ^ (binadeExp q - 52)) := by
    apply le_roundHalfEven_of_le
    simpa using div_nonneg hq (spacing_pos _).le
  exact_mod_cast this

theorem roundMag_le_pow (q : ℚ) : roundMag q ≤ 2 ^ (binadeExp q + 1) := by
  unfold roundMag
  set e := binadeExp q with he
  have hs := spacing_pos (e - 52)
  have hlog : q < 2 ^ (e + 1) := by
    have h1 : q < ((2 : ℕ) : ℚ) ^ (Int.log 2 q + 1) := Int.lt_zpow_succ_log_self (by norm_num) q
    have h2 : ((2 : ℕ) : ℚ) ^ (Int.log 2 q + 1) ≤ 2 ^ (e + 1) := by
      push_cast
      apply zpow_le_zpow_right₀ (by norm_num)
      have : Int.log 2 q ≤ e := le_max_left _ _
      omega
    exact lt_of_lt_of_le h1 h2
  have hsplit : (2 : ℚ) ^ (e + 1) = ((2 ^ 53 : ℤ) : ℚ) * 2 ^ (e - 52) := by
    have : e + 1 = 53 + (e - 52) := by ring
    rw [this, zpow_add₀ (by norm_num)]
    norm_num
  have hle : roundHalfEven (q / 2 ^ (e - 52)) ≤ (2 ^ 53 : ℤ) := by
    apply roundHalfEven_le_of_le
    rw [div_le_iff₀ hs, ← hsplit]
    exact hlog.le
  rw [hsplit]
  exact mul_le_mul_of_nonneg_right (by exact_mod_cast hle) hs.le

theorem pow_le_roundMag {q : ℚ} (hq : 0 < q) (hn : -1022 ≤ Int.log 2 q) :
    2 ^ binadeExp q ≤ roundMag q := by
  have he : binadeExp q = Int.log 2 q := by unfold binadeExp; exact max_eq_left hn
  unfold roundMag
  rw [he]
  set e := Int.log 2 q
  have hs := spacing_pos (e - 52)
  have hlog : (2 : ℚ) ^ e ≤ q := by
    have := Int.zpow_log_le_self (R := ℚ) (b := 2) (by norm_num) hq
    simpa using this
  have hsplit : (2 : ℚ) ^ e = ((2 ^ 52 : ℤ) : ℚ) * 2 ^ (e - 52) := by
    have : e = 52 + (e - 52) := by ring
    conv_lhs => rw [this, zpow_add₀ (by norm_num : (2 : ℚ) ≠ 0)]
    norm_num
  have hle : (2 ^ 52 : ℤ) ≤ roundHalfEven (q / 2 ^ (e - 52)) := by
    apply le_roundHalfEven_of_le
    rw [le_div_iff₀ hs, ← hsplit]
    exact hlog
  rw [hsplit]
  exact mul_le_mul_of_nonneg_right (by exact_mod_cast hle) hs.le

theorem roundMag_zero : roundMag 0 = 0 := by
  unfold roundMag
  simp [roundHalfEven]

theorem roundMag_mono {p q : ℚ} (hp : 0 ≤ p) (h : p ≤ q) : roundMag p ≤ roundMag q := by
  rcases eq_or_lt_of_le hp with hp0 | hp0
  · rw [← hp0, roundMag_zero]
    exact roundMag_nonneg (hp.trans h)
  have hq0 : 0 < q := lt_of_lt_of_le hp0 h
  have hexp := binadeExp_mono hp0 h
  rcases eq_or_lt_of_le hexp with heq | hlt
  · unfold roundMag
    rw [← heq]
    have hs := spacing_pos (binadeExp p - 52)
    apply mul_le_mul_of_nonneg_right _ hs.le
    have : roundHalfEven (p / 2 ^ (binadeExp p - 52)) ≤ roundHalfEven (q / 2 ^ (binadeExp p - 52)) :=
      roundHalfEven_mono (div_le_div_of_nonneg_right h hs.le)
    exact_mod_cast this
  · have hn : -1022 ≤ Int.log 2 q := by
      by_contra hcon
      have h1 : binadeExp q = -1022 := by
        unfold binadeExp; exact max_eq_right (by omega)
      have h2 : -1022 ≤ binadeExp p := le_max_right _ _
      omega
    calc roundMag p ≤ 2 ^ (binadeExp p + 1) := roundMag_le_pow p
      _ ≤ 2 ^ binadeExp q := zpow_le_zpow_right₀ (by norm_num) (by omega)
      _ ≤ roundMag q := pow_le_roundMag hq0 hn

theorem roundDouble_of_nonneg {q : ℚ} (hq : 0 ≤ q) : roundDouble q = roundMag q := by
  unfold roundDouble
  rw [if_neg (not_lt.mpr hq)]

theorem roundDouble_nonneg {q : ℚ} (hq : 0 ≤ q) : 0 ≤ roundDouble q := by
  rw [roundDouble_of_nonneg hq]; exact roundMag_nonneg hq

theorem roundDouble_mono {p q : ℚ} (hp : 0 ≤ p) (h : p ≤ q) : roundDouble p ≤ roundDouble q := by
  rw [roundDouble_of_nonneg hp, roundDouble_of_nonneg (hp.trans h)]
  exact roundMag_mono hp h

theorem roundDouble_zero : roundDouble 0 = 0 := by
  rw [roundDouble_of_nonneg le_rfl, roundMag_zero]


theorem roundMag_two_zpow {k : ℤ} (hk : -1022 ≤ k) : roundMag ((2 : ℚ) ^ k) = 2 ^ k := by
  have hlog : Int.log 2 ((2 : ℚ) ^ k) = k := by
    have := Int.log_zpow (R := ℚ) (b := 2) (by norm_num) k
    simpa using this
  have he : binadeExp ((2 : ℚ) ^ k) = k := by
    unfold binadeExp; rw [hlog]; exact max_eq_left hk
  unfold roundMag
  rw [he]
  have hs := spacing_pos (k - 52)
  have hsplit : (2 : ℚ) ^ k = ((2 ^ 52 : ℤ) : ℚ) * 2 ^ (k - 52) := by
    have : k = 52 + (k - 52) := by ring
    conv_lhs => rw [this, zpow_add₀ (by norm_num : (2 : ℚ) ≠ 0)]
    norm_num
  have hdiv : (2 : ℚ) ^ k / 2 ^ (k - 52) = ((2 ^ 52 : ℤ) : ℚ) := by
    rw [div_eq_iff hs.ne']
    exact hsplit
  rw [hdiv, roundHalfEven_intCast, ← hsplit]

theorem roundMag_eq_of_bounds {q : ℚ} {e m : ℤ} (he : -1022 ≤ e) (h1 : (2 : ℚ) ^ e ≤ q)
    (h2 : q < 2 ^ (e + 1)) (h3 : (m : ℚ) - 1 / 2 < q / 2 ^ (e - 52))
    (h4 : q / 2 ^ (e - 52) < m + 1 / 2) : roundMag q = m * 2 ^ (e - 52) := by
  have hq : 0 < q := lt_of_lt_of_le (spacing_pos e) h1
  have hlog : Int.log 2 q = e := by
    apply le_antisymm
    · have : Int.log 2 q < e + 1 := by
        rw [← Int.lt_zpow_iff_log_lt (R := ℚ) (b := 2) (by norm_num) hq]
        simpa using h2
      omega
    · rw [← Int.zpow_le_iff_le_log (R := ℚ) (b := 2) (by norm_num) hq]
      simpa using h1
  have hb : binadeExp q = e := by
    unfold binadeExp; rw [hlog]; exact max_eq_left he
  unfold roundMag
  rw [hb, roundHalfEven_eq_of_near h3 h4]

theorem roundMag_natCast_of_lt {n : ℕ} (h : n < 2 ^ 53) : roundMag (n : ℚ) = n := by
  rcases Nat.eq_zero_or_pos n with h0 | hpos
  · subst h0; simpa using roundMag_zero
  have hk : Nat.log 2 n < 53 := Nat.log_lt_of_lt_pow hpos.ne' h
  have hb : binadeExp (n : ℚ) = (Nat.log 2 n : ℤ) := by
    unfold binadeExp
    rw [Int.log_natCast]
    exact max_eq_left (by omega)
  unfold roundMag
  rw [hb]
  obtain ⟨j, hj⟩ : ∃ j : ℕ, (Nat.log 2 n : ℤ) - 52 = -(j : ℤ) := ⟨52 - Nat.log 2 n, by omega⟩
  rw [hj, zpow_neg, zpow_natCast]
  have hpow : (0 : ℚ) < 2 ^ j := by positivity
  have hdiv : (n : ℚ) / (2 ^ j)⁻¹ = ((n * 2 ^ j : ℤ) : ℚ) := by
    rw [div_inv_eq_mul]; push_cast; ring
  rw [hdiv, roundHalfEven_intCast]
  push_cast
  field_simp

/-! ## The due count -/

theorem u64ToDouble_nonneg (n : ℕ) : 0 ≤ u64ToDouble n :=
  roundDouble_nonneg (Nat.cast_nonneg n)

theorem u64ToDouble_mono {m n : ℕ} (h : m ≤ n) : u64ToDouble m ≤ u64ToDouble n :=
  roundDouble_mono (Nat.cast_nonneg m) (by exact_mod_cast h)

theorem u64ToDouble_of_lt {n : ℕ} (h : n < 2 ^ 53) : u64ToDouble n = n := by
  unfold u64ToDouble
  rw [roundDouble_of_nonneg (Nat.cast_nonneg n), roundMag_natCast_of_lt h]

theorem u64ToDouble_zero : u64ToDouble 0 = 0 := by
  simpa using u64ToDouble_of_lt (n := 0) (by norm_num)

theorem one_le_u64ToDouble {n : ℕ} (h : 0 < n) : 1 ≤ u64ToDouble n := by
  have h1 : u64ToDouble 1 = 1 := by simpa using u64ToDouble_of_lt (n := 1) (by norm_num)
  rw [← h1]
  exact u64ToDouble_mono h

theorem u64ToDouble_le {n : ℕ} (h : n < 2 ^ 64) : u64ToDouble n ≤ 2 ^ 64 := by
  unfold u64ToDouble
  have hz : (2 : ℚ) ^ (64 : ℤ) = 2 ^ 64 := by norm_num
  have h1 : (n : ℚ) ≤ (2 : ℚ) ^ (64 : ℤ) := by
    rw [hz]; exact_mod_cast h.le
  have h2 := roundDouble_mono (Nat.cast_nonneg n) h1
  rw [roundDouble_of_nonneg (spacing_pos 64).le, roundMag_two_zpow (by norm_num)] at h2
  rw [← hz]; exact h2

theorem ddiv_nonneg {a b : ℚ} (ha : 0 ≤ a) (hb : 0 ≤ b) : 0 ≤ ddiv a b :=
  roundDouble_nonneg (div_nonneg ha hb)

theorem dueDouble_nonneg (elapsed frequency rate : ℕ) : 0 ≤ dueDouble elapsed frequency rate :=
  roundDouble_nonneg
    (mul_nonneg (ddiv_nonneg (u64ToDouble_nonneg _) (u64ToDouble_nonneg _)) (u64ToDouble_nonneg _))

theorem dueDouble_mono {e₁ e₂ : ℕ} (h : e₁ ≤ e₂) (frequency rate : ℕ) :
    dueDouble e₁ frequency rate ≤ dueDouble e₂ frequency rate := by
  unfold dueDouble dmul
  have hq : ddiv (u64ToDouble e₁) (u64ToDouble frequency)
      ≤ ddiv (u64ToDouble e₂) (u64ToDouble frequency) :=
    roundDouble_mono (div_nonneg (u64ToDouble_nonneg _) (u64ToDouble_nonneg _))
      (div_le_div_of_nonneg_right (u64ToDouble_mono h) (u64ToDouble_nonneg _))
  exact roundDouble_mono
    (mul_nonneg (ddiv_nonneg (u64ToDouble_nonneg _) (u64ToDouble_nonneg _)) (u64ToDouble_nonneg _))
    (mul_le_mul_of_nonneg_right hq (u64ToDouble_nonneg _))

/-- No rounding performed by `GetDelta` comes near the overflow threshold
`2 ^ 1024` of binary64: the product is at most `2 ^ 128`. -/
theorem dueDouble_le {elapsed frequency rate : ℕ} (he : elapsed < 2 ^ 64) (hf : 0 < frequency)
    (hr : rate < 2 ^ 64) : dueDouble elapsed frequency rate ≤ 2 ^ 128 := by
  have hz : (2 : ℚ) ^ (64 : ℤ) = 2 ^ 64 := by norm_num
  have hz2 : (2 : ℚ) ^ (128 : ℤ) = 2 ^ 128 := by norm_num
  have hq : ddiv (u64ToDouble elapsed) (u64ToDouble frequency) ≤ 2 ^ 64 := by
    unfold ddiv
    have hfpos : (0 : ℚ) < u64ToDouble frequency := lt_of_lt_of_le one_pos (one_le_u64ToDouble hf)
    have h1 : u64ToDouble elapsed / u64ToDouble frequency ≤ (2 : ℚ) ^ (64 : ℤ) := by
      rw [div_le_iff₀ hfpos]
      calc u64ToDouble elapsed ≤ 2 ^ 64 := u64ToDouble_le he
        _ = (2 : ℚ) ^ (64 : ℤ) * 1 := by norm_num
        _ ≤ (2 : ℚ) ^ (64 : ℤ) * u64ToDouble frequency :=
            mul_le_mul_of_nonneg_left (one_le_u64ToDouble hf) (spacing_pos 64).le
    have h2 := roundDouble_mono (div_nonneg (u64ToDouble_nonneg _) (u64ToDouble_nonneg _)) h1
    rw [roundDouble_of_nonneg (spacing_pos 64).le, roundMag_two_zpow (by norm_num)] at h2
    rw [← hz]; exact h2
  unfold dueDouble dmul
  have h3 : ddiv (u64ToDouble elapsed) (u64ToDouble frequency) * u64ToDouble rate
      ≤ (2 : ℚ) ^ (128 : ℤ) := by
    calc ddiv (u64ToDouble elapsed) (u64ToDouble frequency) * u64ToDouble rate
        ≤ 2 ^ 64 * 2 ^ 64 :=
          mul_le_mul hq (u64ToDouble_le hr) (u64ToDouble_nonneg _) (by norm_num)
      _ = (2 : ℚ) ^ (128 : ℤ) := by norm_num
  have h4 := roundDouble_mono
    (mul_nonneg (ddiv_nonneg (u64ToDouble_nonneg _) (u64ToDouble_nonneg _)) (u64ToDouble_nonneg _)) h3
  rw [roundDouble_of_nonneg (spacing_pos 128).le, roundMag_two_zpow (by norm_num)] at h4
  rw [← hz2]; exact h4

theorem dueCount_eq_some_iff {elapsed frequency rate d : ℕ} :
    dueCount elapsed frequency rate = some d ↔
      frequency ≠ 0 ∧ dueDouble elapsed frequency rate < 2 ^ 64 ∧
        d = ⌊dueDouble elapsed frequency rate⌋₊ := by
  unfold dueCount doubleToU64
  have hnn := dueDouble_nonneg elapsed frequency rate
  by_cases hf : frequency = 0
  · simp [hf]
  · by_cases hlt : dueDouble elapsed frequency rate < 2 ^ 64
    · have hgt : (-1 : ℚ) < dueDouble elapsed frequency rate := by linarith
      simp [hf, hlt, hgt, eq_comm]
    · simp [hf, hlt]

theorem dueCount_mono {e₁ e₂ frequency rate d₂ : ℕ} (h : e₁ ≤ e₂)
    (h2 : dueCount e₂ frequency rate = some d₂) :
    ∃ d₁, dueCount e₁ frequency rate = some d₁ ∧ d₁ ≤ d₂ := by
  rw [dueCount_eq_some_iff] at h2
  obtain ⟨hf, hlt, hd⟩ := h2
  have hm := dueDouble_mono h frequency rate
  refine ⟨⌊dueDouble e₁ frequency rate⌋₊, ?_, ?_⟩
  · rw [dueCount_eq_some_iff]
    exact ⟨hf, lt_of_le_of_lt hm hlt, rfl⟩
  · rw [hd]
    exact Nat.floor_mono hm

theorem dueCount_lt {elapsed frequency rate d : ℕ} (h : dueCount elapsed frequency rate = some d) :
    d < 2 ^ 64 := by
  rw [dueCount_eq_some_iff] at h
  obtain ⟨_, hlt, hd⟩ := h
  rw [hd]
  have hnn := dueDouble_nonneg elapsed frequency rate
  rw [Nat.floor_lt hnn]
  exact_mod_cast hlt

theorem dueCount_zero_rate {elapsed frequency : ℕ} (hf : 0 < frequency) :
    dueCount elapsed frequency 0 = some 0 := by
  rw [dueCount_eq_some_iff]
  have h0 : dueDouble elapsed frequency 0 = 0 := by
    unfold dueDouble dmul
    rw [u64ToDouble_zero, mul_zero, roundDouble_zero]
  refine ⟨hf.ne', ?_, ?_⟩
  · rw [h0]; norm_num
  · rw [h0]; simp


/-! ## The clock -/

theorem sub64_of_le {a b : ℕ} (hba : b ≤ a) (ha : a < 2 ^ 64) : sub64 a b = a - b := by
  unfold sub64 UINT64_RANGE
  have hb : b < 2 ^ 64 := lt_of_le_of_lt hba ha
  rw [Nat.mod_eq_of_lt ha, Nat.mod_eq_of_lt hb]
  have : a + 2 ^ 64 - b = (a - b) + 2 ^ 64 := by omega
  rw [this, Nat.add_mod_right, Nat.mod_eq_of_lt (by omega)]

theorem sub64_lt (a b : ℕ) : sub64 a b < 2 ^ 64 := by
  unfold sub64 UINT64_RANGE
  exact Nat.mod_lt _ (by norm_num)

theorem dueCount_zero_elapsed {frequency rate : ℕ} (hf : 0 < frequency) :
    dueCount 0 frequency rate = some 0 := by
  rw [dueCount_eq_some_iff]
  have h0 : dueDouble 0 frequency rate = 0 := by
    unfold dueDouble dmul ddiv
    rw [u64ToDouble_zero, zero_div, roundDouble_zero, zero_mul, roundDouble_zero]
  refine ⟨hf.ne', ?_, ?_⟩
  · rw [h0]; norm_num
  · rw [h0]; simp

theorem GetDelta_eq {c : Cycles} {t d : ℕ} (h0 : c.ticks_at_reset ≤ t) (ht : t < 2 ^ 64)
    (hd : dueCount (t - c.ticks_at_reset) c.performance_frequency c.cycles_per_second = some d)
    (hle : c.cycles_emulated ≤ d) :
    c.GetDelta t = some (d - c.cycles_emulated, { c with cycles_emulated := d }) := by
  unfold Cycles.GetDelta
  simp only [sub64_of_le h0 ht, hd, sub64_of_le hle (dueCount_lt hd)]

theorem le_lastReading {t₀ : ℕ} {ts : List ℕ} (h : List.Chain (· ≤ ·) t₀ ts) :
    t₀ ≤ lastReading t₀ ts := by
  induction ts generalizing t₀ with
  | nil => exact le_rfl
  | cons t ts ih =>
    rw [List.chain_cons] at h
    exact h.1.trans (ih h.2)

/-- The invariant of a call sequence: from a clock whose `cycles_emulated` is
the due count of an earlier reading `p`, the calls succeed, the deltas add up
to the difference of the due counts, and the clock ends at the last due
count. -/
theorem run_of_invariant (ts : List ℕ) : ∀ (c : Cycles) (p D : ℕ),
    c.ticks_at_reset ≤ p → List.Chain (· ≤ ·) p ts → lastReading p ts < 2 ^ 64 →
    dueCount (p - c.ticks_at_reset) c.performance_frequency c.cycles_per_second
      = some c.cycles_emulated →
    dueCount (lastReading p ts - c.ticks_at_reset) c.performance_frequency c.cycles_per_second
      = some D →
    ∃ ds, c.run ts = some (ds, { c with cycles_emulated := D }) ∧
      c.cycles_emulated + ds.sum = D := by
  induction ts with
  | nil =>
    intro c p D _ _ _ hp hD
    have : c.cycles_emulated = D := by
      simp only [lastReading] at hD
      rw [hp] at hD
      exact Option.some.inj hD
    refine ⟨[], ?_, by simpa using this⟩
    simp [Cycles.run, ← this]
  | cons t ts ih =>
    intro c p D h0 hchain hlast hp hD
    rw [List.chain_cons] at hchain
    obtain ⟨hpt, hrest⟩ := hchain
    simp only [lastReading] at hlast hD
    have htl := le_lastReading hrest
    have ht : t < 2 ^ 64 := lt_of_le_of_lt htl hlast
    have h0t : c.ticks_at_reset ≤ t := h0.trans hpt
    obtain ⟨d, hd, _⟩ := dueCount_mono (Nat.sub_le_sub_right htl c.ticks_at_reset) hD
    obtain ⟨d', hd', hle⟩ := dueCount_mono (Nat.sub_le_sub_right hpt c.ticks_at_reset) hd
    rw [hp] at hd'
    have hle' : c.cycles_emulated ≤ d := by
      have := Option.some.inj hd'
      omega
    have hstep := GetDelta_eq h0t ht hd hle'
    obtain ⟨ds, hrun, hsum⟩ := ih { c with cycles_emulated := d } t D h0t hrest hlast hd hD
    refine ⟨(d - c.cycles_emulated) :: ds, ?_, ?_⟩
    · simp only [Cycles.run, hstep, hrun]
    · simp only [List.sum_cons]
      simp only at hsum
      omega


/-- Evaluation of the `double` expression of `GetDelta` at operands below
`2 ^ 53` (which convert exactly), from the binade and the nearest multiple of
the spacing of the quotient and of the product. -/
theorem dueDouble_eval {x f c : ℕ} (e₁ m₁ e₂ m₂ : ℤ)
    (hx : x < 2 ^ 53) (hf : f < 2 ^ 53) (hc : c < 2 ^ 53)
    (he₁ : -1022 ≤ e₁) (h1 : (2 : ℚ) ^ e₁ ≤ (x : ℚ) / f) (h2 : (x : ℚ) / f < 2 ^ (e₁ + 1))
    (h3 : (m₁ : ℚ) - 1 / 2 < (x : ℚ) / f / 2 ^ (e₁ - 52))
    (h4 : (x : ℚ) / f / 2 ^ (e₁ - 52) < m₁ + 1 / 2)
    (he₂ : -1022 ≤ e₂) (h5 : (2 : ℚ) ^ e₂ ≤ m₁ * 2 ^ (e₁ - 52) * c)
    (h6 : (m₁ : ℚ) * 2 ^ (e₁ - 52) * c < 2 ^ (e₂ + 1))
    (h7 : (m₂ : ℚ) - 1 / 2 < m₁ * 2 ^ (e₁ - 52) * c / 2 ^ (e₂ - 52))
    (h8 : (m₁ : ℚ) * 2 ^ (e₁ - 52) * c / 2 ^ (e₂ - 52) < m₂ + 1 / 2) :
    dueDouble x f c = m₂ * 2 ^ (e₂ - 52) := by
  unfold dueDouble dmul ddiv
  rw [u64ToDouble_of_lt hx, u64ToDouble_of_lt hf, u64ToDouble_of_lt hc]
  have hq : roundDouble ((x : ℚ) / f) = m₁ * 2 ^ (e₁ - 52) := by
    rw [roundDouble_of_nonneg (le_trans (spacing_pos e₁).le h1)]
    exact roundMag_eq_of_bounds he₁ h1 h2 h3 h4
  rw [hq, roundDouble_of_nonneg (le_trans (spacing_pos e₂).le h5)]
  exact roundMag_eq_of_bounds he₂ h5 h6 h7 h8

theorem dueCount_of_dueDouble {x f c n : ℕ} {v : ℚ} (hv : dueDouble x f c = v) (hf : f ≠ 0)
    (hlo : (n : ℚ) ≤ v) (hhi : v < n + 1) (hn : n < 2 ^ 64) : dueCount x f c = some n := by
  rw [dueCount_eq_some_iff, hv]
  refine ⟨hf, ?_, ?_⟩
  · have : ((n : ℚ) + 1) ≤ 2 ^ 64 := by exact_mod_cast hn
    linarith
  · symm
    rw [Nat.floor_eq_iff (le_trans (Nat.cast_nonneg n) hlo)]
    exact ⟨hlo, hhi⟩

theorem dueCount_249 : dueCount 249 1000000 1000000 = some 248 := by
  have hv : dueDouble 249 1000000 1000000 = (8760908650119167 : ℤ) * 2 ^ ((7 : ℤ) - 52) :=
    dueDouble_eval (-12) 4593239274353678 _ _ (by norm_num) (by norm_num) (by norm_num)
      (by norm_num) (by norm_num) (by norm_num) (by norm_num) (by norm_num)
      (by norm_num) (by norm_num) (by norm_num) (by norm_num) (by norm_num)
  exact dueCount_of_dueDouble hv (by norm_num) (by norm_num) (by norm_num) (by norm_num)

theorem dueCount_16000999999 : dueCount 16000999999 1000000000 1000001 = some 16001016 := by
  have hv : dueDouble 16000999999 1000000000 1000001
      = (8590480052846592 : ℤ) * 2 ^ ((23 : ℤ) - 52) :=
    dueDouble_eval 4 4503881102065732 _ _ (by norm_num) (by norm_num) (by norm_num)
      (by norm_num) (by norm_num) (by norm_num) (by norm_num) (by norm_num)
      (by norm_num) (by norm_num) (by norm_num) (by norm_num) (by norm_num)
  exact dueCount_of_dueDouble hv (by norm_num) (by norm_num) (by norm_num) (by norm_num)

/-- The binary64 value of the literal `0.1`, as a check of `roundDouble`
against the well-known bit pattern `0x3FB999999999999A`. -/
theorem roundDouble_one_tenth :
    roundDouble (1 / 10) = (7205759403792794 : ℤ) * 2 ^ ((-4 : ℤ) - 52) := by
  rw [roundDouble_of_nonneg (by norm_num)]
  exact roundMag_eq_of_bounds (by norm_num) (by norm_num) (by norm_num) (by norm_num)
    (by norm_num)

theorem dueCount_some_floor {x f c : ℕ} (hf : 0 < f) (h : dueDouble x f c < 2 ^ 64) :
    dueCount x f c = some ⌊dueDouble x f c⌋₊ :=
  dueCount_eq_some_iff.mpr ⟨hf.ne', h, rfl⟩

theorem dueDouble_30 : dueDouble 30 1000 1000 = (8444249301319680 : ℤ) * 2 ^ ((4 : ℤ) - 52) :=
  dueDouble_eval (-6) 8646911284551352 _ _ (by norm_num) (by norm_num) (by norm_num)
    (by norm_num) (by norm_num) (by norm_num) (by norm_num) (by norm_num)
    (by norm_num) (by norm_num) (by norm_num) (by norm_num) (by norm_num)

theorem dueDouble_5 : dueDouble 5 1000 1000 = (5629499534213120 : ℤ) * 2 ^ ((2 : ℤ) - 52) :=
  dueDouble_eval (-8) 5764607523034235 _ _ (by norm_num) (by norm_num) (by norm_num)
    (by norm_num) (by norm_num) (by norm_num) (by norm_num) (by norm_num)
    (by norm_num) (by norm_num) (by norm_num) (by norm_num) (by norm_num)

theorem run_cons_of_GetDelta {c c' : Cycles} {t d : ℕ} (ts : List ℕ)
    (h : c.GetDelta t = some (d, c')) :
    c.run (t :: ts) = (c'.run ts).map (fun r => (d :: r.1, r.2)) := by
  simp only [Cycles.run, h]
  cases c'.run ts <;> rfl

theorem run_nil (c : Cycles) : c.run [] = some ([], c) := rfl

theorem run_after_reset (c : Cycles) (t₀ : ℕ) (ts : List ℕ) (hf : 0 < c.performance_frequency)
    (hchain : List.Chain (· ≤ ·) t₀ ts) (hlast : lastReading t₀ ts < 2 ^ 64)
    (hrange : dueDouble (lastReading t₀ ts - t₀) c.performance_frequency c.cycles_per_second
      < 2 ^ 64) :
    ∃ ds D, D = ⌊dueDouble (lastReading t₀ ts - t₀) c.performance_frequency c.cycles_per_second⌋₊ ∧
      (c.Reset t₀).run ts = some (ds, { c.Reset t₀ with cycles_emulated := D }) ∧ ds.sum = D := by
  have hD := dueCount_some_floor hf hrange
  have h0 : dueCount (t₀ - (c.Reset t₀).ticks_at_reset) (c.Reset t₀).performance_frequency
      (c.Reset t₀).cycles_per_second = some (c.Reset t₀).cycles_emulated := by
    simp only [Cycles.Reset, Nat.sub_self]
    exact dueCount_zero_elapsed hf
  obtain ⟨ds, hrun, hsum⟩ := run_of_invariant ts (c.Reset t₀) t₀ _ le_rfl hchain hlast h0 hD
  refine ⟨ds, _, rfl, hrun, ?_⟩
  simpa [Cycles.Reset] using hsum

/-- C1 (as stated, refuted). With a counter of 1 MHz and a rate of 1000000
cycles per second, a single `GetDelta` call 249 ticks after `Reset` returns
248, while `floor(249 * 1000000 / 1000000)` is 249: the quotient `249 / 1e6`
is rounded to a `double` before it is multiplied by the rate. -/
theorem getDelta_sum_ne_exact_floor :
    ((Cycles.construct 1000000 1000000 0 0).Reset 0).run [249]
        = some ([248], { ticks_at_reset := 0, cycles_emulated := 248,
                         cycles_per_second := 1000000, performance_frequency := 1000000 }) ∧
      [248].sum ≠ dueExact (249 - 0) 1000000 1000000 := by
  constructor
  · have h := GetDelta_eq (c := (Cycles.construct 1000000 1000000 0 0).Reset 0) (t := 249)
      (Nat.zero_le _) (by norm_num) dueCount_249 (Nat.zero_le _)
    rw [run_cons_of_GetDelta [] h, run_nil]
    rfl
  · simp [dueExact]

/-- C1 (amended). After `Reset` at reading `t₀`, for `GetDelta` calls at
non-decreasing readings, all calls return and the returned deltas add up to
the due count that the code computes at the last call, the truncation of
`(double)(t_n - t₀) / frequency * rate` evaluated in binary64, whatever the
number of calls and their spacing; the frequency is positive and that count is
below `2 ^ 64`. -/
theorem getDelta_sum_eq_due (c : Cycles) (t₀ : ℕ) (ts : List ℕ)
    (hf : 0 < c.performance_frequency)
    (hchain : List.Chain (· ≤ ·) t₀ ts) (hlast : lastReading t₀ ts < 2 ^ 64)
    (hrange : dueDouble (lastReading t₀ ts - t₀) c.performance_frequency c.cycles_per_second
      < 2 ^ 64) :
    ∃ ds c', (c.Reset t₀).run ts = some (ds, c') ∧
      ds.sum = ⌊dueDouble (lastReading t₀ ts - t₀) c.performance_frequency c.cycles_per_second⌋₊ := by
  obtain ⟨ds, D, hD, hrun, hsum⟩ := run_after_reset c t₀ ts hf hchain hlast hrange
  exact ⟨ds, _, hrun, hsum.trans hD⟩

theorem getDelta_sum_eq_due_witness :
    ∃ ds c', ((Cycles.construct 1000 1000 7 9).Reset 0).run [10, 10, 30] = some (ds, c') ∧
      ds.sum = ⌊dueDouble (lastReading 0 [10, 10, 30] - 0) 1000 1000⌋₊ :=
  getDelta_sum_eq_due (Cycles.construct 1000 1000 7 9) 0 [10, 10, 30] (by decide) (by simp)
    (by decide) (by simp only [lastReading, Nat.sub_zero, Cycles.construct]; rw [dueDouble_30]; norm_num)

/-- C9 (as stated, refuted). With a counter of 1 GHz and a rate of 1000001
cycles per second, `GetDelta` 16000999999 ticks after `Reset` sets
`cycles_emulated` to 16001016, one more than
`floor(16000999999 * 1000001 / 1000000000) = 16001015`. -/
theorem cycles_emulated_exceeds_exact_floor :
    ((Cycles.construct 1000001 1000000000 0 0).Reset 0).GetDelta 16000999999
        = some (16001016, { ticks_at_reset := 0, cycles_emulated := 16001016,
                            cycles_per_second := 1000001, performance_frequency := 1000000000 }) ∧
      dueExact (16000999999 - 0) 1000000000 1000001 < 16001016 := by
  constructor
  · exact GetDelta_eq (c := (Cycles.construct 1000001 1000000000 0 0).Reset 0) (t := 16000999999)
      (Nat.zero_le _) (by norm_num) dueCount_16000999999 (Nat.zero_le _)
  · simp [dueExact]

/-- C9 (amended). In every state `c₁` reached from `Reset` at `t₀` by
`GetDelta` calls at non-decreasing readings, `cycles_emulated` is the due count
the code computes in binary64 for the elapsed ticks of the latest call; a
further call at a reading `t` not before the latest one returns, does not
decrease `cycles_emulated`, and returns the exact difference of the two counts,
computed without wraparound; the frequency is positive and the due count at
`t` is below `2 ^ 64`. -/
theorem cycles_emulated_invariant (c : Cycles) (t₀ : ℕ) (ts : List ℕ) (t : ℕ)
    (hf : 0 < c.performance_frequency)
    (hchain : List.Chain (· ≤ ·) t₀ ts) (hnext : lastReading t₀ ts ≤ t) (ht : t < 2 ^ 64)
    (hrange : dueDouble (t - t₀) c.performance_frequency c.cycles_per_second < 2 ^ 64) :
    ∃ ds c₁ d c₂, (c.Reset t₀).run ts = some (ds, c₁) ∧ c₁.GetDelta t = some (d, c₂) ∧
      c₁.cycles_emulated
        = ⌊dueDouble (lastReading t₀ ts - t₀) c.performance_frequency c.cycles_per_second⌋₊ ∧
      c₂.cycles_emulated = ⌊dueDouble (t - t₀) c.performance_frequency c.cycles_per_second⌋₊ ∧
      c₁.cycles_emulated ≤ c₂.cycles_emulated ∧
      (d : ℤ) = (c₂.cycles_emulated : ℤ) - (c₁.cycles_emulated : ℤ) := by
  have hmono := dueDouble_mono (Nat.sub_le_sub_right hnext t₀) c.performance_frequency
    c.cycles_per_second
  have hrange₁ := lt_of_le_of_lt hmono hrange
  obtain ⟨ds, D, hD, hrun, _⟩ :=
    run_after_reset c t₀ ts hf hchain (lt_of_le_of_lt hnext ht) hrange₁
  subst hD
  have hle : ⌊dueDouble (lastReading t₀ ts - t₀) c.performance_frequency c.cycles_per_second⌋₊
      ≤ ⌊dueDouble (t - t₀) c.performance_frequency c.cycles_per_second⌋₊ := Nat.floor_mono hmono
  have hstep := GetDelta_eq (c := { c.Reset t₀ with cycles_emulated := _ }) (t := t)
    ((le_lastReading hchain).trans hnext) ht (dueCount_some_floor hf hrange) hle
  exact ⟨ds, _, _, _, hrun, hstep, rfl, rfl, hle, Int.ofNat_sub hle⟩

theorem cycles_emulated_invariant_witness :
    ∃ ds c₁ d c₂, ((Cycles.construct 1000 1000 7 9).Reset 0).run [10, 10] = some (ds, c₁) ∧
      c₁.GetDelta 30 = some (d, c₂) ∧
      c₁.cycles_emulated = ⌊dueDouble (lastReading 0 [10, 10] - 0) 1000 1000⌋₊ ∧
      c₂.cycles_emulated = ⌊dueDouble (30 - 0) 1000 1000⌋₊ ∧
      c₁.cycles_emulated ≤ c₂.cycles_emulated ∧
      (d : ℤ) = (c₂.cycles_emulated : ℤ) - (c₁.cycles_emulated : ℤ) :=
  cycles_emulated_invariant (Cycles.construct 1000 1000 7 9) 0 [10, 10] 30 (by decide) (by simp)
    (by decide) (by decide)
    (by simp only [Nat.sub_zero, Cycles.construct]; rw [dueDouble_30]; norm_num)

/-! ## The timer callback -/

theorem tickLoop_spec {χ : Type} (Tick : χ → χ) (n : ℕ) (hn : n < 2 ^ 64) :
    ∀ (fuel ix : ℕ) (chipset : χ), ix ≤ n → n - ix < fuel →
      tickLoop Tick n fuel ix chipset = some (Tick^[n - ix] chipset) := by
  intro fuel
  induction fuel with
  | zero => intro ix chipset _ h; omega
  | succ fuel ih =>
    intro ix chipset hle hfuel
    unfold tickLoop
    by_cases hix : ix = n
    · subst hix
      simp
    · have hlt : ix < n := lt_of_le_of_ne hle hix
      have hmod : (ix + 1) % UINT64_RANGE = ix + 1 := by
        unfold UINT64_RANGE
        exact Nat.mod_eq_of_lt (by omega)
      rw [if_pos hix, hmod, ih (ix + 1) (Tick chipset) hlt (by omega)]
      have : n - ix = (n - (ix + 1)) + 1 := by omega
      rw [this, Function.iterate_succ_apply]

theorem GetDelta_delta_lt {c c' : Cycles} {t d : ℕ} (h : c.GetDelta t = some (d, c')) :
    d < 2 ^ 64 := by
  unfold Cycles.GetDelta at h
  simp only at h
  split at h
  · exact absurd h (by simp)
  · simp only [Option.some.injEq, Prod.mk.injEq] at h
    rw [← h.1]
    exact sub64_lt _ _

theorem TimerCallback_eq {χ σ : Type} (Tick : χ → χ) (e : Emulator χ σ) (counter d : ℕ)
    (cycles : Cycles) (h : e.cycles.GetDelta counter = some (d, cycles)) (fuel : ℕ)
    (hfuel : d < fuel) :
    Emulator.TimerCallback Tick e counter fuel
      = some { e with cycles := cycles, chipset := Tick^[d] e.chipset } := by
  unfold Emulator.TimerCallback
  have hloop := tickLoop_spec Tick d (GetDelta_delta_lt h) fuel 0 e.chipset (Nat.zero_le _)
    (by omega)
  simp only [h, hloop, Nat.sub_zero]

/-- C2. When `GetDelta` returns `d` on an invocation of `TimerCallback`, the
invocation terminates (any fuel above `d` suffices), updates the clock by that
one `GetDelta` call, and applies `chipset.Tick` exactly `d` times in sequence
to the chipset. -/
theorem TimerCallback_ticks {χ σ : Type} (Tick : χ → χ) (e : Emulator χ σ) (counter d : ℕ)
    (cycles : Cycles) (h : e.cycles.GetDelta counter = some (d, cycles)) (fuel : ℕ)
    (hfuel : d < fuel) :
    Emulator.TimerCallback Tick e counter fuel
      = some { e with cycles := cycles, chipset := Tick^[d] e.chipset } :=
  TimerCallback_eq Tick e counter d cycles h fuel hfuel

theorem GetDelta_sample_5 :
    sampleEmulator.cycles.GetDelta 5
      = some (5, { ticks_at_reset := 0, cycles_emulated := 5, cycles_per_second := 1000,
                   performance_frequency := 1000 }) :=
  GetDelta_eq (c := (Cycles.construct 1000 1000 0 0).Reset 0) (t := 5) (Nat.zero_le _)
    (by norm_num)
    (dueCount_of_dueDouble dueDouble_5 (by decide) (by norm_num) (by norm_num) (by norm_num))
    (Nat.zero_le _)

theorem TimerCallback_ticks_witness :
    Emulator.TimerCallback Nat.succ sampleEmulator 5 6
      = some { sampleEmulator with
          cycles := { ticks_at_reset := 0, cycles_emulated := 5, cycles_per_second := 1000,
                      performance_frequency := 1000 }
          chipset := Nat.succ^[5] sampleEmulator.chipset } :=
  TimerCallback_ticks Nat.succ sampleEmulator 5 5 _ GetDelta_sample_5 6 (by decide)

/-! ## Zero rate -/

theorem sub64_zero_zero : sub64 0 0 = 0 := by
  unfold sub64 UINT64_RANGE
  norm_num

theorem GetDelta_zero_rate {c : Cycles} (hr : c.cycles_per_second = 0)
    (hf : 0 < c.performance_frequency) (he : c.cycles_emulated = 0) (t : ℕ) :
    c.GetDelta t = some (0, c) := by
  unfold Cycles.GetDelta
  simp only [hr, dueCount_zero_rate hf, he, sub64_zero_zero]
  cases c
  simp_all

theorem exec_zero_rate (ops : List ClockOp) : ∀ (c : Cycles), c.cycles_per_second = 0 →
    0 < c.performance_frequency → c.cycles_emulated = 0 →
    ∃ ds c', c.exec ops = some (ds, c') ∧ (∀ d ∈ ds, d = 0) ∧ c'.cycles_emulated = 0 ∧
      c'.cycles_per_second = 0 ∧ 0 < c'.performance_frequency := by
  induction ops with
  | nil => intro c hr hf he; exact ⟨[], c, rfl, by simp, he, hr, hf⟩
  | cons op ops ih =>
    intro c hr hf he
    cases op with
    | reset t =>
      obtain ⟨ds, c', hrun, hds, hc'⟩ := ih (c.Reset t) hr hf rfl
      exact ⟨ds, c', by simpa only [Cycles.exec] using hrun, hds, hc'⟩
    | getDelta t =>
      obtain ⟨ds, c', hrun, hds, hc'⟩ := ih c hr hf he
      refine ⟨0 :: ds, c', ?_, ?_, hc'⟩
      · simp only [Cycles.exec, GetDelta_zero_rate hr hf he, hrun]
      · intro d hd
        rcases List.mem_cons.mp hd with h | h
        · exact h
        · exact hds d h

theorem sub64_zero_nine : sub64 0 9 = 18446744073709551607 := by
  unfold sub64 UINT64_RANGE
  norm_num

theorem GetDelta_zero_rate_unreset (garbage₁ garbage₂ t frequency : ℕ) (hf : 0 < frequency) :
    (Cycles.construct 0 frequency garbage₁ garbage₂).GetDelta t
      = some (sub64 0 garbage₂, { ticks_at_reset := garbage₁, cycles_emulated := 0,
                                  cycles_per_second := 0, performance_frequency := frequency }) := by
  unfold Cycles.GetDelta Cycles.construct
  simp only [dueCount_zero_rate hf]

/-- C10 (as stated, refuted). With no earlier `Reset`, the clock constructed
with `cycles_per_second = 0` still holds in `cycles_emulated` whatever the
constructor left there, here 9: the first `GetDelta` call, at reading 30 on a
counter of 1 kHz, computes the due count 0 and returns `0 - 9` modulo `2 ^ 64`,
which is not 0. -/
theorem zero_rate_delta_before_reset :
    (Cycles.construct 0 1000 7 9).GetDelta 30
        = some (18446744073709551607,
            { ticks_at_reset := 7, cycles_emulated := 0, cycles_per_second := 0,
              performance_frequency := 1000 }) ∧
      (18446744073709551607 : ℕ) ≠ 0 := by
  constructor
  · rw [GetDelta_zero_rate_unreset 7 9 30 1000 (by norm_num), sub64_zero_nine]
  · norm_num

/-- C10 (amended). A clock constructed with `cycles_per_second = 0` on a
counter of positive frequency, once reset as the constructor of `Emulator`
does before it starts the timer: after any number of further `Reset` and
`GetDelta` calls at any counter readings, every
`GetDelta` call has returned 0 and `cycles_emulated` is 0, and a
`TimerCallback` invocation at any reading then returns with the chipset
untouched (no tick) and `cycles_emulated` still 0. -/
theorem zero_rate_never_ticks {χ σ : Type} (frequency garbage₁ garbage₂ t₀ : ℕ)
    (hf : 0 < frequency) (ops : List ClockOp) (Tick : χ → χ) (e : Emulator χ σ)
    (counter fuel : ℕ) (hfuel : 0 < fuel) :
    ∃ ds c', ((Cycles.construct 0 frequency garbage₁ garbage₂).Reset t₀).exec ops = some (ds, c') ∧
      (∀ d ∈ ds, d = 0) ∧ c'.cycles_emulated = 0 ∧
      c'.GetDelta counter = some (0, c') ∧
      Emulator.TimerCallback Tick { e with cycles := c' } counter fuel
        = some { e with cycles := c' } := by
  obtain ⟨ds, c', hrun, hds, he, hr, hf'⟩ :=
    exec_zero_rate ops ((Cycles.construct 0 frequency garbage₁ garbage₂).Reset t₀) rfl hf rfl
  have hget := GetDelta_zero_rate hr hf' he counter
  refine ⟨ds, c', hrun, hds, he, hget, ?_⟩
  have := TimerCallback_eq Tick { e with cycles := c' } counter 0 c' hget fuel hfuel
  simpa using this

theorem zero_rate_never_ticks_witness :
    ∃ ds c', ((Cycles.construct 0 1000 7 9).Reset 3).exec
          [ClockOp.getDelta 50, ClockOp.reset 20, ClockOp.getDelta 10] = some (ds, c') ∧
      (∀ d ∈ ds, d = 0) ∧ c'.cycles_emulated = 0 ∧
      c'.GetDelta 4000 = some (0, c') ∧
      Emulator.TimerCallback Nat.succ { sampleEmulator with cycles := c' } 4000 1
        = some { sampleEmulator with cycles := c' } :=
  zero_rate_never_ticks 1000 7 9 3 (by decide)
    [ClockOp.getDelta 50, ClockOp.reset 20, ClockOp.getDelta 10] Nat.succ sampleEmulator 4000 1
    (by decide)

/-! ## The console -/

theorem c_str_eq_nil_of_nil {s : List Char} (h : s = []) : c_str s = [] := by
  subst h; rfl

theorem lua_pop_push {σ : Type} (L : LuaState σ) (v : LuaValue) :
    lua_pop { L with stack := v :: L.stack } 1 = L := by
  cases L; rfl

theorem strstr_of_endsAtEof {message : List Char} (h : endsAtEof message) :
    strstr (some message) "<eof>".toList = true := by
  unfold strstr
  exact decide_eq_true (List.IsSuffix.isInfix h)

/-- What `ExecuteCommand` does when the buffer does not compile. -/
theorem ExecuteCommand_of_error {χ σ : Type} (lib : LuaLib σ) (e : Emulator χ σ)
    (command message : List Char)
    (hload : lib.loadstring (c_str (e.command_buffer ++ command)) = Except.error message) :
    Emulator.ExecuteCommand lib e command =
      if strstr (some message) "<eof>".toList then
        ((e.command_buffer ++ command).isEmpty,
          { e with command_buffer := e.command_buffer ++ command })
      else
        (true, { e with command_buffer := []
                        log := e.log ++ ["[Console input] ".toList ++ message ++ "\n".toList] }) := by
  unfold Emulator.ExecuteCommand luaL_loadstring
  simp only [hload, pushLoadResult, lua_pop_push, lua_tostring, LuaValue.tostring, showCString]
  generalize strstr (some message) "<eof>".toList = found
  cases found <;> simp [LUA_OK, LUA_ERRSYNTAX]

/-- What `ExecuteCommand` does when the buffer compiles. -/
theorem ExecuteCommand_of_ok {χ σ : Type} (lib : LuaLib σ) (e : Emulator χ σ)
    (command : List Char) (chunk : ℕ)
    (hload : lib.loadstring (c_str (e.command_buffer ++ command)) = Except.ok chunk) :
    Emulator.ExecuteCommand lib e command =
      match lib.call chunk e.lua_state.world with
      | CallOutcome.returned _ world =>
        (true, { e with command_buffer := []
                        lua_state := { e.lua_state with world := world
                                                        calls := e.lua_state.calls ++ [chunk] } })
      | CallOutcome.raised error world =>
        (true, { e with command_buffer := []
                        log := e.log ++
                          ["[Console input] ".toList ++ showCString error.tostring ++ "\n".toList]
                        lua_state := { e.lua_state with world := world
                                                        calls := e.lua_state.calls ++ [chunk] } }) := by
  unfold Emulator.ExecuteCommand luaL_loadstring
  simp only [hload, pushLoadResult, lua_pcall]
  cases hcall : lib.call chunk e.lua_state.world with
  | returned values world =>
    simp [LUA_OK, adjustResults]
  | raised error world =>
    simp [LUA_OK, LUA_ERRRUN, lua_pop, lua_tostring]

/-- C3. When compiling the buffer extended by the fragment fails with a
diagnostic that ends at the end of input (`<eof>`), `ExecuteCommand` returns
`false`, the buffer is the old buffer followed by the fragment, and nothing
else changes: no chunk is called, the Lua state and the log are as before.
Lua accepts the empty source, so such a failure is not one of the empty
buffer. -/
theorem ExecuteCommand_truncated {χ σ : Type} (lib : LuaLib σ) (e : Emulator χ σ)
    (f message : List Char)
    (hempty : ∀ m, lib.loadstring [] ≠ Except.error m)
    (hload : lib.loadstring (c_str (e.command_buffer ++ f)) = Except.error message)
    (heof : endsAtEof message) :
    Emulator.ExecuteCommand lib e f = (false, { e with command_buffer := e.command_buffer ++ f }) := by
  rw [ExecuteCommand_of_error lib e f message hload, if_pos (strstr_of_endsAtEof heof)]
  have hne : e.command_buffer ++ f ≠ [] := by
    intro h
    rw [c_str_eq_nil_of_nil h] at hload
    exact hempty message hload
  have : (e.command_buffer ++ f).isEmpty = false := by
    cases hb : e.command_buffer ++ f with
    | nil => exact absurd hb hne
    | cons _ _ => rfl
  rw [this]

/-- C5. When the buffer extended by the fragment compiles, `ExecuteCommand`
returns `true` with the buffer cleared, the compiled chunk called exactly once
and no result left on the stack, whether the call returns (nothing is logged)
or raises (the error is logged and the function still returns normally). -/
theorem ExecuteCommand_compiled {χ σ : Type} (lib : LuaLib σ) (e : Emulator χ σ)
    (f : List Char) (chunk : ℕ)
    (hload : lib.loadstring (c_str (e.command_buffer ++ f)) = Except.ok chunk) :
    (Emulator.ExecuteCommand lib e f).1 = true ∧
      (Emulator.ExecuteCommand lib e f).2.command_buffer = [] ∧
      (Emulator.ExecuteCommand lib e f).2.lua_state.calls = e.lua_state.calls ++ [chunk] ∧
      (Emulator.ExecuteCommand lib e f).2.lua_state.stack = e.lua_state.stack ∧
      (Emulator.ExecuteCommand lib e f).2.lua_state.registry = e.lua_state.registry ∧
      (match lib.call chunk e.lua_state.world with
        | CallOutcome.returned _ world =>
          (Emulator.ExecuteCommand lib e f).2.lua_state.world = world ∧
            (Emulator.ExecuteCommand lib e f).2.log = e.log
        | CallOutcome.raised error world =>
          (Emulator.ExecuteCommand lib e f).2.lua_state.world = world ∧
            (Emulator.ExecuteCommand lib e f).2.log = e.log ++
              ["[Console input] ".toList ++ showCString error.tostring ++ "\n".toList]) := by
  rw [ExecuteCommand_of_ok lib e f chunk hload]
  cases lib.call chunk e.lua_state.world <;> simp

set_option maxRecDepth 4000 in
/-- C7 (as stated, refuted). The fragments `if true then` and `print(1) end`
of the specification: the first call returns `false`; the second call compiles the
buffer `if true thenprint(1) end`, the two fragments with nothing in between,
which is a syntax error, so it returns `true` with the buffer cleared, the
diagnostic logged and no chunk called, instead of one execution. -/
theorem ExecuteCommand_unseparated_fragments :
    (Emulator.ExecuteCommand
        (LuaLib.fixed compileUnseparated (CallOutcome.returned [] ()) sampleFields)
        sampleEmulator "if true then".toList).1 = false ∧
      (Emulator.ExecuteCommand
        (LuaLib.fixed compileUnseparated (CallOutcome.returned [] ()) sampleFields)
        (Emulator.ExecuteCommand
          (LuaLib.fixed compileUnseparated (CallOutcome.returned [] ()) sampleFields)
          sampleEmulator "if true then".toList).2 "print(1) end".toList).1 = true ∧
      (Emulator.ExecuteCommand
        (LuaLib.fixed compileUnseparated (CallOutcome.returned [] ()) sampleFields)
        (Emulator.ExecuteCommand
          (LuaLib.fixed compileUnseparated (CallOutcome.returned [] ()) sampleFields)
          sampleEmulator "if true then".toList).2 "print(1) end".toList).2.lua_state.calls = [] ∧
      (Emulator.ExecuteCommand
        (LuaLib.fixed compileUnseparated (CallOutcome.returned [] ()) sampleFields)
        (Emulator.ExecuteCommand
          (LuaLib.fixed compileUnseparated (CallOutcome.returned [] ()) sampleFields)
          sampleEmulator "if true then".toList).2 "print(1) end".toList).2.log
        = ["[Console input] ".toList ++ thenExpectedMessage ++ "\n".toList] := by
  have hs₁ : strstr (some "[string \"if true then\"]:1: 'end' expected near <eof>".toList)
      "<eof>".toList = true := by decide
  have hs₂ : strstr (some thenExpectedMessage) "<eof>".toList = false := by decide
  obtain ⟨e₁, he₁⟩ : ∃ e₁ : Emulator ℕ Unit,
      e₁ = { sampleEmulator with command_buffer := "if true then".toList } := ⟨_, rfl⟩
  have h₁ : Emulator.ExecuteCommand
      (LuaLib.fixed compileUnseparated (CallOutcome.returned [] ()) sampleFields) sampleEmulator
      "if true then".toList = (false, e₁) := by
    rw [ExecuteCommand_of_error _ sampleEmulator "if true then".toList
      "[string \"if true then\"]:1: 'end' expected near <eof>".toList rfl, if_pos hs₁, he₁]
    rfl
  have h₂ : Emulator.ExecuteCommand
      (LuaLib.fixed compileUnseparated (CallOutcome.returned [] ()) sampleFields) e₁
      "print(1) end".toList
      = (true, { e₁ with command_buffer := []
                         log := e₁.log ++
                           ["[Console input] ".toList ++ thenExpectedMessage ++ "\n".toList] }) := by
    rw [ExecuteCommand_of_error _ e₁ "print(1) end".toList thenExpectedMessage
      (by rw [he₁]; rfl), hs₂, if_neg (by simp)]
  rw [h₁]
  refine ⟨rfl, ?_⟩
  show (Emulator.ExecuteCommand _ e₁ _).1 = true ∧
    (Emulator.ExecuteCommand _ e₁ _).2.lua_state.calls = [] ∧
    (Emulator.ExecuteCommand _ e₁ _).2.log = _
  rw [h₂, he₁]
  exact ⟨rfl, rfl, rfl⟩

/-- C7 (amended). From an empty buffer, a first fragment whose compilation
fails at the end of input makes `ExecuteCommand` return `false` and call
nothing; when the first fragment directly followed by the second compiles, the
second call returns `true`, clears the buffer and calls exactly one chunk, the
one compiled from that concatenation. -/
theorem ExecuteCommand_two_fragments {χ σ : Type} (lib : LuaLib σ) (e : Emulator χ σ)
    (f₁ f₂ message : List Char) (chunk : ℕ)
    (hbuffer : e.command_buffer = [])
    (hempty : ∀ m, lib.loadstring [] ≠ Except.error m)
    (hfirst : lib.loadstring (c_str f₁) = Except.error message) (heof : endsAtEof message)
    (hboth : lib.loadstring (c_str (f₁ ++ f₂)) = Except.ok chunk) :
    (Emulator.ExecuteCommand lib e f₁).1 = false ∧
      (Emulator.ExecuteCommand lib e f₁).2.lua_state.calls = e.lua_state.calls ∧
      (Emulator.ExecuteCommand lib (Emulator.ExecuteCommand lib e f₁).2 f₂).1 = true ∧
      (Emulator.ExecuteCommand lib (Emulator.ExecuteCommand lib e f₁).2 f₂).2.lua_state.calls
        = e.lua_state.calls ++ [chunk] ∧
      (Emulator.ExecuteCommand lib (Emulator.ExecuteCommand lib e f₁).2 f₂).2.command_buffer = [] := by
  have hload₁ : lib.loadstring (c_str (e.command_buffer ++ f₁)) = Except.error message := by
    rw [hbuffer]; exact hfirst
  have hne : f₁ ≠ [] := by
    intro h
    rw [c_str_eq_nil_of_nil h] at hfirst
    exact hempty message hfirst
  have hstep : Emulator.ExecuteCommand lib e f₁ = (false, { e with command_buffer := f₁ }) := by
    rw [ExecuteCommand_of_error lib e f₁ message hload₁, if_pos (strstr_of_endsAtEof heof), hbuffer]
    cases f₁ with
    | nil => exact absurd rfl hne
    | cons _ _ => rfl
  rw [hstep]
  have hload₂ : lib.loadstring
      (c_str (({ e with command_buffer := f₁ } : Emulator χ σ).command_buffer ++ f₂))
      = Except.ok chunk := hboth
  rw [ExecuteCommand_of_ok lib _ f₂ chunk hload₂]
  cases lib.call chunk e.lua_state.world <;> simp

theorem compileTwoFragments_nil (m : List Char) : compileTwoFragments [] ≠ Except.error m := by
  intro h
  simp [compileTwoFragments] at h

theorem ExecuteCommand_truncated_witness :
    Emulator.ExecuteCommand
        (LuaLib.fixed compileTwoFragments (CallOutcome.returned [] ()) sampleFields)
        sampleEmulator "if true then ".toList
      = (false, { sampleEmulator with
          command_buffer := sampleEmulator.command_buffer ++ "if true then ".toList }) :=
  ExecuteCommand_truncated
    (LuaLib.fixed compileTwoFragments (CallOutcome.returned [] ()) sampleFields) sampleEmulator
    "if true then ".toList "[string \"if true then \"]:1: 'end' expected near <eof>".toList
    compileTwoFragments_nil rfl (by decide)

theorem ExecuteCommand_compiled_witness :
    (Emulator.ExecuteCommand
        (LuaLib.fixed compileTwoFragments (CallOutcome.raised (LuaValue.string "boom".toList) ())
          sampleFields)
        sampleEmulator "if true then print(1) end".toList).1 = true ∧
      (Emulator.ExecuteCommand
        (LuaLib.fixed compileTwoFragments (CallOutcome.raised (LuaValue.string "boom".toList) ())
          sampleFields)
        sampleEmulator "if true then print(1) end".toList).2.lua_state.calls = [7] :=
  have h := ExecuteCommand_compiled
    (LuaLib.fixed compileTwoFragments (CallOutcome.raised (LuaValue.string "boom".toList) ())
      sampleFields)
    sampleEmulator "if true then print(1) end".toList 7 rfl
  ⟨h.1, h.2.2.1⟩

theorem ExecuteCommand_two_fragments_witness :
    (Emulator.ExecuteCommand
        (LuaLib.fixed compileTwoFragments (CallOutcome.returned [] ()) sampleFields)
        sampleEmulator "if true then ".toList).1 = false ∧
      (Emulator.ExecuteCommand
        (LuaLib.fixed compileTwoFragments (CallOutcome.returned [] ()) sampleFields)
        (Emulator.ExecuteCommand
          (LuaLib.fixed compileTwoFragments (CallOutcome.returned [] ()) sampleFields)
          sampleEmulator "if true then ".toList).2 "print(1) end".toList).1 = true ∧
      (Emulator.ExecuteCommand
        (LuaLib.fixed compileTwoFragments (CallOutcome.returned [] ()) sampleFields)
        (Emulator.ExecuteCommand
          (LuaLib.fixed compileTwoFragments (CallOutcome.returned [] ()) sampleFields)
          sampleEmulator "if true then ".toList).2 "print(1) end".toList).2.lua_state.calls
        = [7] :=
  have h := ExecuteCommand_two_fragments
    (LuaLib.fixed compileTwoFragments (CallOutcome.returned [] ()) sampleFields) sampleEmulator
    "if true then ".toList "print(1) end".toList
    "[string \"if true then \"]:1: 'end' expected near <eof>".toList 7 rfl
    compileTwoFragments_nil rfl (by decide) rfl
  ⟨h.1, h.2.2.1, h.2.2.2.1⟩

/-- C4 (the defect). The console input `)<eof>` on an empty buffer is a plain
syntax error, and its diagnostic does not end at the end of input; but the
diagnostic quotes the source, so it contains the text `<eof>`, and
`ExecuteCommand` keeps the buffer and returns `false` as if the input were
incomplete, where the buffer should be cleared and `true` returned. -/
theorem ExecuteCommand_keeps_syntax_error :
    ¬ endsAtEof unexpectedSymbolMessage ∧
      Emulator.ExecuteCommand
          (LuaLib.fixed compileUnexpectedSymbol (CallOutcome.returned [] ()) sampleFields)
          sampleEmulator ")<eof>".toList
        = (false, { sampleEmulator with command_buffer := ")<eof>".toList }) := by
  constructor
  · decide
  · rw [ExecuteCommand_of_error _ sampleEmulator ")<eof>".toList unexpectedSymbolMessage rfl]
    rfl

/-! ## Integer extraction -/

theorem digitsValue_append (xs ys : List Char) (acc : ℕ) :
    digitsValue acc (xs ++ ys) = digitsValue (digitsValue acc xs) ys := by
  induction xs generalizing acc with
  | nil => rfl
  | cons x xs ih => exact ih (10 * acc + (x.toNat - '0'.toNat))

theorem digitChar_value {k : ℕ} (hk : k < 10) : (Nat.digitChar k).toNat - '0'.toNat = k := by
  have h : ∀ j : Fin 10, (Nat.digitChar j.val).toNat - '0'.toNat = j.val := by decide
  exact h ⟨k, hk⟩

theorem digitChar_isDigit {k : ℕ} (hk : k < 10) : (Nat.digitChar k).isDigit = true := by
  have h : ∀ j : Fin 10, (Nat.digitChar j.val).isDigit = true := by decide
  exact h ⟨k, hk⟩

theorem digitsValue_digitChar (acc : ℕ) {k : ℕ} (hk : k < 10) :
    digitsValue acc [Nat.digitChar k] = 10 * acc + k := by
  show 10 * acc + ((Nat.digitChar k).toNat - '0'.toNat) = 10 * acc + k
  rw [digitChar_value hk]

theorem toDigitsCore_append (fuel : ℕ) : ∀ (n : ℕ) (ds : List Char),
    Nat.toDigitsCore 10 fuel n ds = Nat.toDigitsCore 10 fuel n [] ++ ds := by
  induction fuel with
  | zero => intro n ds; rfl
  | succ fuel ih =>
    intro n ds
    simp only [Nat.toDigitsCore]
    by_cases h : n / 10 = 0
    · simp [h]
    · rw [if_neg h, if_neg h, ih (n / 10) (Nat.digitChar (n % 10) :: ds),
        ih (n / 10) [Nat.digitChar (n % 10)]]
      simp

theorem toDigitsCore_spec (fuel : ℕ) : ∀ (n : ℕ), n < fuel →
    digitsValue 0 (Nat.toDigitsCore 10 fuel n []) = n ∧
      (∀ c ∈ Nat.toDigitsCore 10 fuel n [], c.isDigit = true) ∧
      Nat.toDigitsCore 10 fuel n [] ≠ [] := by
  induction fuel with
  | zero => intro n h; omega
  | succ fuel ih =>
    intro n hn
    simp only [Nat.toDigitsCore]
    have hmod : n % 10 < 10 := Nat.mod_lt _ (by norm_num)
    by_cases h : n / 10 = 0
    · rw [if_pos h]
      refine ⟨?_, ?_, by simp⟩
      · rw [digitsValue_digitChar 0 hmod]
        omega
      · intro c hc
        rw [List.mem_singleton] at hc
        rw [hc]; exact digitChar_isDigit hmod
    · rw [if_neg h, toDigitsCore_append]
      obtain ⟨hv, hd, _⟩ := ih (n / 10) (by omega)
      refine ⟨?_, ?_, by simp⟩
      · rw [digitsValue_append, hv, digitsValue_digitChar _ hmod]
        omega
      · intro c hc
        rcases List.mem_append.mp hc with hc | hc
        · exact hd c hc
        · rw [List.mem_singleton] at hc
          rw [hc]; exact digitChar_isDigit hmod

theorem toDigits_spec (n : ℕ) :
    digitsValue 0 (Nat.toDigits 10 n) = n ∧ (∀ c ∈ Nat.toDigits 10 n, c.isDigit = true) ∧
      Nat.toDigits 10 n ≠ [] :=
  toDigitsCore_spec (n + 1) n (Nat.lt_succ_self n)

theorem isspace_of_isDigit {c : Char} (h : c.isDigit = true) : isspace c = false := by
  by_contra hs
  have hs' : isspace c = true := by simpa using hs
  unfold isspace at hs'
  simp only [Bool.or_eq_true, decide_eq_true_eq] at hs'
  rcases hs' with ((((hc | hc) | hc) | hc) | hc) | hc <;> (subst hc; revert h; decide)

theorem ne_sign_of_isDigit {c : Char} (h : c.isDigit = true) : c ≠ '-' ∧ c ≠ '+' := by
  constructor <;> (intro hc; subst hc; revert h; decide)

theorem takeWhile_digits_append (ds rest : List Char) (hds : ∀ c ∈ ds, c.isDigit = true)
    (hrest : ∀ c, rest.head? = some c → c.isDigit = false) :
    (ds ++ rest).takeWhile Char.isDigit = ds := by
  induction ds with
  | nil =>
    cases rest with
    | nil => rfl
    | cons r rest => simp [List.takeWhile, hrest r rfl]
  | cons d ds ih =>
    have hd : d.isDigit = true := hds d (List.mem_cons_self _ _)
    rw [List.cons_append, List.takeWhile_cons, hd, if_pos rfl,
      ih (fun c hc => hds c (List.mem_cons_of_mem _ hc))]

/-- Extraction from a digit sequence followed by anything that does not start
with a digit. -/
theorem extractInt_digits (ds rest : List Char) (hne : ds ≠ [])
    (hds : ∀ c ∈ ds, c.isDigit = true) (hrest : ∀ c, rest.head? = some c → c.isDigit = false) :
    extractInt (ds ++ rest) =
      if ((digitsValue 0 ds : ℕ) : ℤ) ≤ INT_MAX then some ((digitsValue 0 ds : ℕ) : ℤ) else none := by
  obtain ⟨d, ds', rfl⟩ := List.exists_cons_of_ne_nil hne
  have hd : d.isDigit = true := hds d (List.mem_cons_self _ _)
  have hsp := isspace_of_isDigit hd
  obtain ⟨hminus, hplus⟩ := ne_sign_of_isDigit hd
  have htake := takeWhile_digits_append (d :: ds') rest hds hrest
  unfold extractInt
  simp only [List.cons_append] at htake ⊢
  simp only [List.dropWhile, hsp, List.head?, Option.some.injEq, hminus, hplus, or_self,
    if_false, htake, decide_False]
  have hmin : INT_MIN ≤ ((digitsValue 0 (d :: ds') : ℕ) : ℤ) := by
    unfold INT_MIN; omega
  simp [hmin]

theorem extractInt_minus_digits (ds rest : List Char) (hne : ds ≠ [])
    (hds : ∀ c ∈ ds, c.isDigit = true) (hrest : ∀ c, rest.head? = some c → c.isDigit = false) :
    extractInt ('-' :: (ds ++ rest)) =
      if INT_MIN ≤ -((digitsValue 0 ds : ℕ) : ℤ) then some (-((digitsValue 0 ds : ℕ) : ℤ))
      else none := by
  have htake := takeWhile_digits_append ds rest hds hrest
  have hsp : isspace '-' = false := by decide
  unfold extractInt
  simp only [List.dropWhile, hsp, List.head?, List.tail, true_or, if_true, htake, hne, if_false,
    decide_True]
  have hmax : -((digitsValue 0 ds : ℕ) : ℤ) ≤ INT_MAX := by
    unfold INT_MAX; omega
  simp [hmax]

theorem toString_int_toList (n : ℤ) :
    (toString n).toList =
      if 0 ≤ n then Nat.toDigits 10 n.toNat else '-' :: Nat.toDigits 10 (-n).toNat := by
  cases n with
  | ofNat m => simp [toString, Int.repr, Nat.repr, List.asString]
  | negSucc m =>
    have h : ¬ (0 : ℤ) ≤ Int.negSucc m := by simp
    rw [if_neg h]
    simp [toString, Int.repr, Nat.repr, Int.neg_negSucc, List.asString]

/-- Extraction from the decimal text of an `int`, followed by anything that
does not start with a digit, gives back the integer. -/
theorem extractInt_toString (n : ℤ) (rest : List Char) (hmin : INT_MIN ≤ n) (hmax : n ≤ INT_MAX)
    (hrest : ∀ c, rest.head? = some c → c.isDigit = false) :
    extractInt ((toString n).toList ++ rest) = some n := by
  rw [toString_int_toList]
  by_cases h0 : 0 ≤ n
  · obtain ⟨hv, hd, hne⟩ := toDigits_spec n.toNat
    rw [if_pos h0, extractInt_digits _ rest hne hd hrest, hv]
    have : ((n.toNat : ℕ) : ℤ) = n := Int.toNat_of_nonneg h0
    rw [this, if_pos hmax]
  · obtain ⟨hv, hd, hne⟩ := toDigits_spec (-n).toNat
    rw [if_neg h0, List.cons_append, extractInt_minus_digits _ rest hne hd hrest, hv]
    have : (((-n).toNat : ℕ) : ℤ) = -n := Int.toNat_of_nonneg (by omega)
    rw [this, neg_neg, if_pos hmin]

/-! ## `ModelInfo` and the model loader -/

theorem extractInt_eq_none_of_not_startsWithInteger {s : List Char}
    (h : startsWithInteger s = false) : extractInt s = none := by
  unfold startsWithInteger at h
  unfold extractInt
  simp only at h ⊢
  generalize (if (s.dropWhile isspace).head? = some '-' ∨ (s.dropWhile isspace).head? = some '+'
    then (s.dropWhile isspace).tail else s.dropWhile isspace) = unsigned at h ⊢
  cases unsigned with
  | nil => simp
  | cons c cs =>
    simp only at h
    simp [List.takeWhile, h]

/-- C6 (as stated, refuted). The field `x` has the string form `4a`, and the
conversion to `int` returns 4 instead of failing: the characters after the
integer stay unread in the stream and are never looked at. -/
theorem operator_int_truncates_trailing_garbage :
    ModelInfo.operator_string
        (LuaLib.fixed (fun _ => Except.ok 0) (CallOutcome.returned [] ()) sampleFields)
        sampleEmulator "x".toList = Except.ok "4a".toList ∧
      ModelInfo.operator_int
        (LuaLib.fixed (fun _ => Except.ok 0) (CallOutcome.returned [] ()) sampleFields)
        sampleEmulator "x".toList = Except.ok 4 := by
  constructor <;> rfl

/-- C6 (amended). For a field whose string form is `s`: the conversion to
`int` returns `n` whenever `s` is the decimal text of an `int` `n` followed by
anything that does not start with a digit (nothing, in particular), the
characters after the integer being ignored; it fails with the conversion error
when `s`, after optional white space and sign, does not start with a digit. -/
theorem operator_int_reads_leading_integer {χ σ : Type} (lib : LuaLib σ)
    (emulator : Emulator χ σ) (key s : List Char)
    (hs : ModelInfo.operator_string lib emulator key = Except.ok s) :
    (∀ (n : ℤ) (rest : List Char), INT_MIN ≤ n → n ≤ INT_MAX →
        (∀ c, rest.head? = some c → c.isDigit = false) → s = (toString n).toList ++ rest →
        ModelInfo.operator_int lib emulator key = Except.ok n) ∧
      (startsWithInteger s = false →
        ModelInfo.operator_int lib emulator key = Except.error (Panic.notConvertible (c_str key))) := by
  constructor
  · intro n rest hmin hmax hrest hsn
    unfold ModelInfo.operator_int
    rw [hs, hsn]
    simp only [extractInt_toString n rest hmin hmax hrest]
  · intro h
    unfold ModelInfo.operator_int
    rw [hs]
    simp only [extractInt_eq_none_of_not_startsWithInteger h]

theorem operator_int_reads_leading_integer_witness :
    ModelInfo.operator_int
        (LuaLib.fixed (fun _ => Except.ok 0) (CallOutcome.returned [] ()) sampleFields)
        sampleEmulator "x".toList = Except.ok 4 ∧
      ModelInfo.operator_int
        (LuaLib.fixed (fun _ => Except.ok 0) (CallOutcome.returned [] ()) sampleFields)
        sampleEmulator "y".toList = Except.error (Panic.notConvertible (c_str "y".toList)) :=
  ⟨(operator_int_reads_leading_integer
      (LuaLib.fixed (fun _ => Except.ok 0) (CallOutcome.returned [] ()) sampleFields)
      sampleEmulator "x".toList "4a".toList rfl).1 4 "a".toList
      (by decide) (by decide) (by decide) (by decide),
    (operator_int_reads_leading_integer
      (LuaLib.fixed (fun _ => Except.ok 0) (CallOutcome.returned [] ()) sampleFields)
      sampleEmulator "y".toList "abc".toList rfl).2 (by decide)⟩

theorem registryEntry_luaL_ref {σ : Type} (L : LuaState σ) (v : LuaValue) :
    registryEntry (luaL_ref { L with stack := v :: L.stack }).2
        (luaL_ref { L with stack := v :: L.stack }).1 = v ∧
      (luaL_ref { L with stack := v :: L.stack }).2.stack = L.stack := by
  cases v <;> simp [luaL_ref, registryEntry, LUA_REFNIL]

/-- C8 (as stated, refuted). The model script returns the number 5, a single
value that is not a table, and `LoadModelDefition` returns normally, with
`lua_model_ref` referring to the number. -/
theorem LoadModelDefition_accepts_number :
    Emulator.LoadModelDefition
        (LuaLib.fixed (fun _ => Except.ok 0) (CallOutcome.returned [LuaValue.number 5] ())
          sampleFields) sampleEmulator
      = Except.ok { sampleEmulator with
          lua_state := { world := (), stack := [], calls := [0]
                         registry := [LuaValue.thread 0, LuaValue.table 0, LuaValue.number 5] }
          lua_model_ref := 3 } := by
  rfl

/-- C8 (amended). `LoadModelDefition` fails fatally when the model script does
not compile and when it raises at run time. In every other case it returns
normally, whatever the number and the types of the values the script returns:
`lua_model_ref` then refers to the first returned value (to that table, when
the script returns exactly one table), or to `nil` when nothing is returned,
and the stack is as before. -/
theorem LoadModelDefition_outcome {χ σ : Type} (lib : LuaLib σ) (e : Emulator χ σ) :
    match lib.loadfile (e.model_path ++ "/model.lua".toList) with
    | Except.error _ => ∃ p, Emulator.LoadModelDefition lib e = Except.error p
    | Except.ok chunk =>
      match lib.call chunk e.lua_state.world with
      | CallOutcome.raised _ _ => ∃ p, Emulator.LoadModelDefition lib e = Except.error p
      | CallOutcome.returned values world =>
        ∃ e', Emulator.LoadModelDefition lib e = Except.ok e' ∧
          registryEntry e'.lua_state e'.lua_model_ref = values.headD LuaValue.nil ∧
          e'.lua_state.stack = e.lua_state.stack ∧ e'.lua_state.world = world ∧
          e'.lua_state.calls = e.lua_state.calls ++ [chunk] := by
  cases hload : lib.loadfile (e.model_path ++ "/model.lua".toList) with
  | error message =>
    simp only
    unfold Emulator.LoadModelDefition luaL_loadfile
    simp only [hload, pushLoadResult, LUA_OK, LUA_ERRSYNTAX]
    exact ⟨_, rfl⟩
  | ok chunk =>
    simp only
    cases hcall : lib.call chunk e.lua_state.world with
    | raised error world =>
      simp only
      unfold Emulator.LoadModelDefition luaL_loadfile
      simp only [hload, pushLoadResult, lua_pcall, hcall, LUA_OK, LUA_ERRRUN]
      exact ⟨_, rfl⟩
    | returned values world =>
      simp only
      have hadj : (adjustResults 1 values).reverse = [values.headD LuaValue.nil] := by
        cases values <;> simp [adjustResults, List.replicate]
      unfold Emulator.LoadModelDefition luaL_loadfile
      simp only [hload, pushLoadResult, lua_pcall, hcall, LUA_OK, hadj]
      refine ⟨_, rfl, ?_⟩
      cases values.headD LuaValue.nil <;> simp [luaL_ref, registryEntry, LUA_REFNIL]

end casioemu
